import Mathlib

/-!
Verification of the piskel CLI sprite tools against their specification.

The JavaScript sources are embedded shallowly:

* raw RGBA buffers (`pngjs` `PNG` objects) become `Png`: a width, a height and
  a byte function; every read goes through `readByte`, which returns 0 outside
  the buffer (a JS `Buffer` read out of range yields `undefined`, which behaves
  like byte 0 in every use the tools make of it: `undefined > 0` is false and
  writing `undefined` into a `Buffer` stores 0) and reduces modulo 256 (a JS
  `Buffer` stores bytes; every write is truncated to the low 8 bits);
* the base64 PNG codec (`decodePng`/`encodePng`) is external (`pngjs`) and is
  treated as transparent: a chunk holds its decoded spritesheet directly;
* JS exceptions (`TypeError` from reading a property of `undefined`) become an
  explicit `thrown` result carrying the state at the moment of the throw;
* `Map`/object caches become association lists consulted with `List.lookup`;
  new entries are consed on the front, which has the same lookup behaviour
  because an entry is only added when its key is absent.
-/

set_option linter.unusedVariables false

namespace Piskel

/-- RGB colour triple as parsed from palette files (the `{r, g, b}` objects of
the CLI tools). -/
structure Color where
  r : Nat
  g : Nat
  b : Nat
deriving DecidableEq, Repr

/-- Squared difference of two naturals, `(a - b)^2` computed without
truncation. -/
def sqDiff (a b : Nat) : Nat := (max a b - min a b) * (max a b - min a b)

/-- `colorDistance` from `palette-match.js` (duplicated verbatim in
`png-to-piskel.js` and `sprite-pipeline.js`): redmean weighted distance.
JS: `((512 + rMean) * dr * dr >> 8) + 4 * dg * dg + ((767 - rMean) * db * db >> 8)`
with `rMean = (r1 + r2) >> 1`.  For byte-range inputs every quantity is
non-negative and fits in an `Int32`, so `>> k` is floor division by `2 ^ k`
and the Nat arithmetic below is exact. -/
def colorDistance (r1 g1 b1 r2 g2 b2 : Nat) : Nat :=
  let rMean := (r1 + r2) / 2
  (512 + rMean) * sqDiff r1 r2 / 256 + 4 * sqDiff g1 g2 + (767 - rMean) * sqDiff b1 b2 / 256

/-- Distance from a raw pixel to a palette entry. -/
def distTo (r g b : Nat) (c : Color) : Nat := colorDistance r g b c.r c.g c.b

/-- Loop of `findNearestColor`: `minDist` starts at JS `Infinity` (modelled as
`⊤ : WithTop Nat`), `nearest` starts at `palette[0]` (`none` when the palette
is empty, because `palette[0]` is `undefined`), the comparison is strict, and
a distance of 0 breaks out of the loop immediately after updating `nearest`. -/
def findNearestAux (r g b : Nat) : WithTop Nat → Option Color → List Color → Option Color
  | _, nearest, [] => nearest
  | minDist, nearest, c :: rest =>
    let d := distTo r g b c
    if (d : WithTop Nat) < minDist then
      if d = 0 then some c
      else findNearestAux r g b (d : WithTop Nat) (some c) rest
    else findNearestAux r g b minDist nearest rest

/-- `findNearestColor` from `palette-match.js` (also duplicated in
`png-to-piskel.js`; `sprite-pipeline.js` inlines the same loop in
`applyPalette`, and `PaletteMatchingService.matchFrameToPalette_` inlines it
over component triples). -/
def findNearestColor (r g b : Nat) (palette : List Color) : Option Color :=
  findNearestAux r g b ⊤ palette.head? palette

/-- `c` is the first entry of `l` achieving the minimum distance to
`(r, g, b)`: every entry before it is strictly farther, every entry after it
is no closer. -/
def FirstMin (r g b : Nat) (l : List Color) (c : Color) : Prop :=
  ∃ l₁ l₂, l = l₁ ++ c :: l₂ ∧
    (∀ e ∈ l₁, distTo r g b c < distTo r g b e) ∧
    (∀ e ∈ l₂, distTo r g b c ≤ distTo r g b e)

/-- Every colour of a palette is a byte triple. -/
def PaletteBytes (palette : List Color) : Prop :=
  ∀ c ∈ palette, c.r < 256 ∧ c.g < 256 ∧ c.b < 256

instance : DecidablePred PaletteBytes := fun palette =>
  inferInstanceAs (Decidable (∀ c ∈ palette, _))

/-- Every cache entry was produced by `findNearestColor` on the byte triple
encoded in its key: the invariant making the cache a pure optimisation. -/
def CacheCoherent (palette : List Color) (cache : List (Nat × Color)) : Prop :=
  ∀ kc ∈ cache, ∃ r g b, r < 256 ∧ g < 256 ∧ b < 256 ∧
    kc.1 = r * 65536 + g * 256 + b ∧ findNearestColor r g b palette = some kc.2

/-! ## Raw RGBA buffers -/

/-- A decoded `pngjs` image: width, height and the backing byte `Buffer`,
row-major interleaved RGBA, flat index `(width * y + x) << 2` plus channel. -/
structure Png where
  width : Nat
  height : Nat
  data : Nat → Nat

/-- Read one byte of a buffer the way the JS tools observe it: out-of-range
reads yield `undefined`, which every use site treats like 0, and a `Buffer`
stores 8-bit values (writes are truncated), hence the reduction mod 256. -/
def readByte (p : Png) (i : Nat) : Nat :=
  if i < 4 * (p.width * p.height) then p.data i % 256 else 0

/-- Alpha byte of pixel `k`. -/
def alphaAt (p : Png) (k : Nat) : Nat := readByte p (4 * k + 3)

/-- The three in-place assignments `png.data[i] = nearest.r` /
`png.data[i+1] = nearest.g` / `png.data[i+2] = nearest.b`. -/
def writeRgb (p : Png) (i : Nat) (c : Color) : Png :=
  { p with data := fun j =>
      if j = i then c.r else if j = i + 1 then c.g else if j = i + 2 then c.b else p.data j }

/-! ## The batch palette matcher (`palette-match.js`) -/

/-- The `colorCache` `Map` of one `processPiskelFile` run: keys are
`(r << 16) | (g << 8) | b`, values the chosen palette entries.  New entries
are consed in front; lookup behaviour matches a `Map` because an entry is
only added when its key is absent. -/
abbrev ColorCache := List (Nat × Color)

/-- Result of running a piece of JS that may throw: `thrown` carries the
state (buffers, caches) exactly as it was at the moment of the exception. -/
inductive MatchResult (σ : Type) where
  | ok : σ → MatchResult σ
  | thrown : σ → MatchResult σ

/-- Run `step` over a list of pixel indices, stopping at the first throw
(the exception propagates out of the loop). -/
def foldSteps {σ : Type} (step : σ → Nat → MatchResult σ) : σ → List Nat → MatchResult σ
  | st, [] => .ok st
  | st, k :: ks =>
    match step st k with
    | .ok st' => foldSteps step st' ks
    | .thrown st' => .thrown st'

/-- One iteration of the pixel loop of `matchPngToPalette` (lines 204-227 of
`palette-match.js`), acting on pixel `k` (buffer index `i = 4 * k`).  State is
(buffer, cache, `modified` flag).  When the palette is empty
`findNearestColor` returns `undefined` (`none`) and the comparison
`png.data[i] !== nearest.r` throws a `TypeError` before any byte is written. -/
def matchPixel (palette : List Color) (st : Png × ColorCache × Bool) (k : Nat) :
    MatchResult (Png × ColorCache × Bool) :=
  let p := st.1
  let i := 4 * k
  if readByte p (i + 3) = 0 then .ok st
  else
    let r := readByte p i
    let g := readByte p (i + 1)
    let b := readByte p (i + 2)
    let key := r * 65536 + g * 256 + b
    match st.2.1.lookup key with
    | some nearest =>
      if r ≠ nearest.r ∨ g ≠ nearest.g ∨ b ≠ nearest.b then
        .ok (writeRgb p i nearest, st.2.1, true)
      else .ok st
    | none =>
      match findNearestColor r g b palette with
      | none => .thrown st
      | some nearest =>
        if r ≠ nearest.r ∨ g ≠ nearest.g ∨ b ≠ nearest.b then
          .ok (writeRgb p i nearest, (key, nearest) :: st.2.1, true)
        else .ok (p, (key, nearest) :: st.2.1, st.2.2)

/-- `matchPngToPalette`: the in-place matching pass over every pixel of one
decoded chunk spritesheet (the base64 decode/encode wrappers are external). -/
def matchPngToPalette (p : Png) (palette : List Color) (cache : ColorCache) :
    MatchResult (Png × ColorCache × Bool) :=
  foldSteps (matchPixel palette) (p, cache, false) (List.range (p.width * p.height))

/-- The same pixel loop with the cache removed: `findNearestColor` is called
afresh for every nonzero-alpha pixel.  This is the comparison point demanded
by the specification ("removing the cache must not change output"). -/
def matchPixelFresh (palette : List Color) (st : Png × Bool) (k : Nat) :
    MatchResult (Png × Bool) :=
  let p := st.1
  let i := 4 * k
  if readByte p (i + 3) = 0 then .ok st
  else
    let r := readByte p i
    let g := readByte p (i + 1)
    let b := readByte p (i + 2)
    match findNearestColor r g b palette with
    | none => .thrown st
    | some nearest =>
      if r ≠ nearest.r ∨ g ≠ nearest.g ∨ b ≠ nearest.b then
        .ok (writeRgb p i nearest, true)
      else .ok st

/-- Cache-free variant of `matchPngToPalette`. -/
def matchPngFresh (p : Png) (palette : List Color) : MatchResult (Png × Bool) :=
  foldSteps (matchPixelFresh palette) (p, false) (List.range (p.width * p.height))

/-! ## Piskel documents -/

/-- One chunk of a layer: the slot layout plus the decoded spritesheet
(`none` models a chunk without a `base64PNG` payload). -/
structure Chunk where
  layout : List (List Nat)
  base64PNG : Option Png

/-- One layer: the modern `chunks` array, or the legacy single `base64PNG`
field handled by `processPiskelFile`'s `else if` branch. -/
structure Layer where
  chunks : Option (List Chunk)
  base64PNG : Option Png

/-- The parsed `.piskel` document: frame width / height and layers. -/
structure PiskelDoc where
  width : Nat
  height : Nat
  layers : List Layer

/-- Chunk loop of `processPiskelFile`, threading the per-file `colorCache`
through every chunk.  `none` models the exception aborting the file. -/
def matchChunks (palette : List Color) (cache : ColorCache) :
    List Chunk → Option (List Chunk × ColorCache)
  | [] => some ([], cache)
  | c :: cs =>
    match c.base64PNG with
    | none => (matchChunks palette cache cs).map fun x => (c :: x.1, x.2)
    | some p =>
      match matchPngToPalette p palette cache with
      | .thrown _ => none
      | .ok (p', cache', _) =>
        (matchChunks palette cache' cs).map fun x =>
          ({ c with base64PNG := some p' } :: x.1, x.2)

/-- One layer of `processPiskelFile`: the `chunks` branch or the legacy
`base64PNG` branch. -/
def matchLayer (palette : List Color) (cache : ColorCache) (l : Layer) :
    Option (Layer × ColorCache) :=
  match l.chunks with
  | some cs => (matchChunks palette cache cs).map fun x => ({ l with chunks := some x.1 }, x.2)
  | none =>
    match l.base64PNG with
    | some p =>
      match matchPngToPalette p palette cache with
      | .ok (p', cache', _) => some ({ l with base64PNG := some p' }, cache')
      | .thrown _ => none
    | none => some (l, cache)

/-- Layer loop of `processPiskelFile`: one `colorCache` is created per file
and shared across all layers and chunks. -/
def matchLayers (palette : List Color) (cache : ColorCache) :
    List Layer → Option (List Layer × ColorCache)
  | [] => some ([], cache)
  | l :: ls =>
    (matchLayer palette cache l).bind fun x =>
      (matchLayers palette x.2 ls).map fun y => (x.1 :: y.1, y.2)

/-- `processPiskelFile` (file I/O stripped): match every chunk of every layer
against the palette, sharing one fresh cache. -/
def processPiskelFile (doc : PiskelDoc) (palette : List Color) : Option PiskelDoc :=
  (matchLayers palette [] doc.layers).map fun x => { doc with layers := x.1 }

/-- Cache-free chunk processing: every chunk is matched by `matchPngFresh`. -/
def matchChunksFresh (palette : List Color) : List Chunk → Option (List Chunk)
  | [] => some []
  | c :: cs =>
    match c.base64PNG with
    | none => (matchChunksFresh palette cs).map fun x => c :: x
    | some p =>
      match matchPngFresh p palette with
      | .thrown _ => none
      | .ok (p', _) =>
        (matchChunksFresh palette cs).map fun x => { c with base64PNG := some p' } :: x

/-- Cache-free layer processing. -/
def matchLayerFresh (palette : List Color) (l : Layer) : Option Layer :=
  match l.chunks with
  | some cs => (matchChunksFresh palette cs).map fun x => { l with chunks := some x }
  | none =>
    match l.base64PNG with
    | some p =>
      match matchPngFresh p palette with
      | .ok (p', _) => some { l with base64PNG := some p' }
      | .thrown _ => none
    | none => some l

/-- Cache-free file processing: the comparison point for the cache claim. -/
def matchLayersFresh (palette : List Color) : List Layer → Option (List Layer)
  | [] => some []
  | l :: ls =>
    (matchLayerFresh palette l).bind fun x =>
      (matchLayersFresh palette ls).map fun y => x :: y

/-- The byte the matching pass leaves at position `j`: alpha bytes and
fully-transparent pixels keep their input byte, other channels take the
nearest palette colour of the pixel's original bytes. -/
def matchedByte (palette : List Color) (p : Png) (j : Nat) : Nat :=
  let k := j / 4
  if j % 4 = 3 ∨ alphaAt p k = 0 then readByte p j
  else
    match findNearestColor (readByte p (4 * k)) (readByte p (4 * k + 1))
        (readByte p (4 * k + 2)) palette with
    | some n => (if j % 4 = 0 then n.r else if j % 4 = 1 then n.g else n.b) % 256
    | none => readByte p j

/-- Does the buffer contain a pixel with a nonzero alpha byte? -/
def hasOpaquePixel (p : Png) : Bool :=
  (List.range (p.width * p.height)).any fun k => alphaAt p k != 0

/-! ## The PNG importer's matcher (`png-to-piskel.js`) -/

/-- One iteration of `applyPaletteToImageData`'s pixel loop: like
`matchPixel` but with no `modified` flag and unconditional writes.  With an
empty palette the JS sets `colorCache.set(key, undefined)` and then throws
while evaluating `nearest.r` on the right-hand side of the first assignment —
before any byte is written; the doomed cache entry is never observable, so
the model throws with the cache as it was. -/
def applyPixel (palette : List Color) (st : Png × ColorCache) (k : Nat) :
    MatchResult (Png × ColorCache) :=
  let p := st.1
  let i := 4 * k
  if readByte p (i + 3) = 0 then .ok st
  else
    let r := readByte p i
    let g := readByte p (i + 1)
    let b := readByte p (i + 2)
    let key := r * 65536 + g * 256 + b
    match st.2.lookup key with
    | some nearest => .ok (writeRgb p i nearest, st.2)
    | none =>
      match findNearestColor r g b palette with
      | none => .thrown st
      | some nearest => .ok (writeRgb p i nearest, (key, nearest) :: st.2)

/-- `applyPaletteToImageData` from `png-to-piskel.js`: its `colorCache` is
created fresh inside the call. -/
def applyPaletteToImageData (p : Png) (palette : List Color) :
    MatchResult (Png × ColorCache) :=
  foldSteps (applyPixel palette) (p, []) (List.range (p.width * p.height))

/-! ## The editor service (`PaletteMatchingService`) -/

/-- The service's `colorCache` object: 32-bit colour int → 32-bit colour int. -/
abbrev IntCache := List (Nat × Nat)

/-- One iteration of `matchFrameToPalette_`'s pixel loop.  A frame stores one
32-bit integer per pixel, `AABBGGRR`.  `>>>`/`&`/`>>` observe the value
modulo `2 ^ 32`; for a value below `2 ^ 32` the extractions below agree with
the JS shifts bit for bit.  The inline nearest-colour loop of the source is
the same algorithm as `findNearestColor` (strict `<`, break on distance 0,
start at `paletteData[0]`, which throws on an empty palette).  The source
guards its writes with `if (pixels[i] !== …)`; an unconditional `set` leaves
the same list. -/
def matchFramePixel (pd : List Color) (st : List Nat × IntCache) (i : Nat) :
    MatchResult (List Nat × IntCache) :=
  let pixels := st.1
  let colorInt := pixels.getD i 0
  let v := colorInt % 2 ^ 32
  let alpha := v / 2 ^ 24
  if alpha = 0 then .ok st
  else
    match st.2.lookup colorInt with
    | some cached => .ok (pixels.set i cached, st.2)
    | none =>
      let r := v % 256
      let g := v / 256 % 256
      let b := v / 65536 % 256
      match findNearestColor r g b pd with
      | none => .thrown st
      | some n =>
        let newColorInt := alpha * 2 ^ 24 + n.b * 65536 + n.g * 256 + n.r
        .ok (pixels.set i newColorInt, (colorInt, newColorInt) :: st.2)

/-- `matchFrameToPalette_`: the in-place pass over one frame's pixel array. -/
def matchFrameToPalette (pd : List Color) (pixels : List Nat) (cache : IntCache) :
    MatchResult (List Nat × IntCache) :=
  foldSteps (matchFramePixel pd) (pixels, cache) (List.range pixels.length)

/-- Frame loop of `matchToPalette`, threading the shared cache. -/
def matchFrames (pd : List Color) (cache : IntCache) :
    List (List Nat) → Option (List (List Nat) × IntCache)
  | [] => some ([], cache)
  | f :: fs =>
    match matchFrameToPalette pd f cache with
    | .thrown _ => none
    | .ok (f', cache') => (matchFrames pd cache' fs).map fun x => (f' :: x.1, x.2)

/-- `PaletteMatchingService.matchToPalette`: an empty palette returns silently
(`if (!colors || colors.length === 0) return;`); otherwise one `colorCache`
is shared across all frames of all layers (the layer/frame nesting is
flattened to one frame list here).  `pd` is `buildPaletteData_`'s output,
whose `& 255` masks make every component a byte. -/
def matchToPalette (pd : List Color) (frames : List (List Nat)) :
    Option (List (List Nat)) :=
  if pd = [] then some frames
  else (matchFrames pd [] frames).map Prod.fst

/-- Alpha byte of a stored 32-bit colour int, as the service extracts it:
`(colorInt >>> 24) & 0xff`. -/
def intAlpha (v : Nat) : Nat := v % 2 ^ 32 / 2 ^ 24

/-- Every entry of the service's cache preserves the alpha byte of its key. -/
def AlphaCoherent (cache : IntCache) : Prop :=
  ∀ kv ∈ cache, intAlpha kv.2 = intAlpha kv.1

/-! ## Concrete test data for the witnesses -/

/-- A 2×1 buffer: pixel 0 = (10, 0, 0, 255), pixel 1 = (0, 0, 200, 255). -/
def testPng : Png := ⟨2, 1, fun i => [10, 0, 0, 255, 0, 0, 200, 255].getD i 0⟩

/-- A 1×1 fully transparent buffer. -/
def clearPng : Png := ⟨1, 1, fun _ => 0⟩

/-- The specification's scenario palette: red then green. -/
def testPalette : List Color := [⟨255, 0, 0⟩, ⟨0, 255, 0⟩]

/-- A one-layer, one-chunk document around `testPng`. -/
def testDoc : PiskelDoc :=
  ⟨2, 1, [{ chunks := some [{ layout := [[0]], base64PNG := some testPng }], base64PNG := none }]⟩

/-- `testDoc` plus a second layer (which the exporter must ignore). -/
def testDocB : PiskelDoc :=
  ⟨2, 1,
    [{ chunks := some [{ layout := [[0]], base64PNG := some testPng }], base64PNG := none },
     { chunks := some [{ layout := [[0]], base64PNG := some clearPng }], base64PNG := none }]⟩

/-- A 1×2 spritesheet: pixel (0,0) transparent, pixel (0,1) opaque red. -/
def narrowPng : Png := ⟨1, 2, fun i => [0, 0, 0, 0, 255, 0, 0, 255].getD i 0⟩

/-- A document whose frame width (2) exceeds its only chunk's sheet width
(1): the case the `|| 1` tiles-per-row guard exists for. -/
def narrowDoc : PiskelDoc :=
  ⟨2, 2, [{ chunks := some [{ layout := [[0]], base64PNG := some narrowPng }], base64PNG := none }]⟩


/-! ## Palette parsing (`palette-match.js`) -/

/-- JS strings are modelled as lists of characters (`String.data`), because
the tools only split, trim and prefix-test them; all operations below are
structural so that concrete palettes evaluate inside the kernel. -/
def splitLinesAux : List Char → List Char → List (List Char)
  | [], cur => [cur.reverse]
  | c :: cs, cur =>
    if c = '\n' then cur.reverse :: splitLinesAux cs []
    else splitLinesAux cs (c :: cur)

/-- JS `content.split('\n')`. -/
def splitLines (s : String) : List (List Char) := splitLinesAux s.data []

/-- JS `String.prototype.trim`: strip whitespace from both ends. -/
def trimChars (cs : List Char) : List Char :=
  ((cs.dropWhile Char.isWhitespace).reverse.dropWhile Char.isWhitespace).reverse

/-- JS `String.prototype.startsWith`. -/
def charsStartWith : List Char → List Char → Bool
  | _, [] => true
  | [], _ :: _ => false
  | c :: cs, d :: ds => c = d && charsStartWith cs ds

/-- `parseInt` on a run of decimal digits. -/
def digitsToNat (ds : List Char) : Nat :=
  ds.foldl (fun a c => a * 10 + (c.toNat - 48)) 0

/-- The regex `^\s*(\d+)\s+(\d+)\s+(\d+)`: three digit runs separated by
whitespace, trailing text ignored.  The digit and whitespace classes are
disjoint, so the greedy maximal-run reading below is exactly the regex's
backtracking semantics. -/
def matchThreeInts (s : List Char) : Option Color :=
  let cs := s.dropWhile Char.isWhitespace
  let d1 := cs.takeWhile Char.isDigit
  let r1 := cs.dropWhile Char.isDigit
  let w1 := r1.takeWhile Char.isWhitespace
  let r2 := r1.dropWhile Char.isWhitespace
  let d2 := r2.takeWhile Char.isDigit
  let r3 := r2.dropWhile Char.isDigit
  let w2 := r3.takeWhile Char.isWhitespace
  let r4 := r3.dropWhile Char.isWhitespace
  let d3 := r4.takeWhile Char.isDigit
  if d1 ≠ [] ∧ w1 ≠ [] ∧ d2 ≠ [] ∧ w2 ≠ [] ∧ d3 ≠ [] then
    some ⟨digitsToNat d1, digitsToNat d2, digitsToNat d3⟩
  else none

/-- One line of `parseGplPalette`: skip blank lines and `#`/`GIMP`/`Name:`/
`Columns:` headers, else try the three-integers regex (`null` → no colour). -/
def parseGplLine (line : List Char) : Option Color :=
  let trimmed := trimChars line
  if trimmed = [] ∨ charsStartWith trimmed ['#'] ∨
      charsStartWith trimmed ['G', 'I', 'M', 'P'] ∨
      charsStartWith trimmed ['N', 'a', 'm', 'e', ':'] ∨
      charsStartWith trimmed ['C', 'o', 'l', 'u', 'm', 'n', 's', ':'] then none
  else matchThreeInts trimmed

/-- Line loop of `parseGplPalette`: every matching line pushes one colour,
with no de-duplication. -/
def parseGplLines (lines : List (List Char)) : List Color :=
  lines.filterMap parseGplLine

/-- `parseGplPalette` from `palette-match.js` (duplicated in
`png-to-piskel.js` and `sprite-pipeline.js`). -/
def parseGplPalette (content : String) : List Color :=
  parseGplLines (splitLines content)

/-- JS `/[0-9a-fA-F]/`. -/
def isHexDigit (c : Char) : Bool :=
  c.isDigit || ('a' ≤ c && c ≤ 'f') || ('A' ≤ c && c ≤ 'F')

/-- Value of one hex digit. -/
def hexVal (c : Char) : Nat :=
  if c.isDigit then c.toNat - 48 else if 'a' ≤ c then c.toNat - 87 else c.toNat - 55

/-- The regex `^#?([0-9a-fA-F]{6})$` with `parseInt(…, 16)`. -/
def matchHex6 (s : List Char) : Option Nat :=
  let cs := if charsStartWith s ['#'] then s.drop 1 else s
  if cs.length = 6 ∧ cs.all isHexDigit then
    some (cs.foldl (fun a c => a * 16 + hexVal c) 0)
  else none

/-- JS `/[,\s]/`, the separator class of the `R,G,B` / `R G B` regex. -/
def isSep (c : Char) : Bool := c = ',' || c.isWhitespace

/-- The regex `^(\d+)[,\s]+(\d+)[,\s]+(\d+)`: like `matchThreeInts` but the
separators may mix commas and whitespace (the classes are again disjoint
from digits, so greedy runs match the regex). -/
def matchThreeIntsSep (s : List Char) : Option Color :=
  let d1 := s.takeWhile Char.isDigit
  let r1 := s.dropWhile Char.isDigit
  let w1 := r1.takeWhile isSep
  let r2 := r1.dropWhile isSep
  let d2 := r2.takeWhile Char.isDigit
  let r3 := r2.dropWhile Char.isDigit
  let w2 := r3.takeWhile isSep
  let r4 := r3.dropWhile isSep
  let d3 := r4.takeWhile Char.isDigit
  if d1 ≠ [] ∧ w1 ≠ [] ∧ d2 ≠ [] ∧ w2 ≠ [] ∧ d3 ≠ [] then
    some ⟨digitsToNat d1, digitsToNat d2, digitsToNat d3⟩
  else none

/-- One line of `parseTxtPalette`: skip blanks, `;` comments, and short `#`
lines; then a 6-hex-digit token parsed as `0xRRGGBB`, else three integers
separated by comma/space. -/
def parseTxtLine (line : List Char) : Option Color :=
  let trimmed := trimChars line
  if trimmed = [] ∨ charsStartWith trimmed [';'] ∨
      (charsStartWith trimmed ['#'] ∧ trimmed.length < 4) then none
  else
    match matchHex6 trimmed with
    | some hex => some ⟨hex / 65536 % 256, hex / 256 % 256, hex % 256⟩
    | none => matchThreeIntsSep trimmed

/-- Line loop of `parseTxtPalette`: no de-duplication. -/
def parseTxtLines (lines : List (List Char)) : List Color :=
  lines.filterMap parseTxtLine

/-- `parseTxtPalette` from `palette-match.js`. -/
def parseTxtPalette (content : String) : List Color :=
  parseTxtLines (splitLines content)

/-- Row-major scan coordinates of a `w × h` buffer. -/
def scanPoints (w h : Nat) : List (Nat × Nat) :=
  (List.range h).flatMap fun y => (List.range w).map fun x => (x, y)

/-- The colour of a scanned pixel when its alpha is positive. -/
def pixelColor? (p : Png) (xy : Nat × Nat) : Option Color :=
  if readByte p (4 * (p.width * xy.2 + xy.1) + 3) > 0 then
    some ⟨readByte p (4 * (p.width * xy.2 + xy.1)),
          readByte p (4 * (p.width * xy.2 + xy.1) + 1),
          readByte p (4 * (p.width * xy.2 + xy.1) + 2)⟩
  else none

/-- Colours of the alpha-positive pixels in scan order, repeats included. -/
def opaqueColors (p : Png) : List Color :=
  (scanPoints p.width p.height).filterMap (pixelColor? p)

/-- One pixel of `parseImagePalette`'s scan: the `Map` keyed by the template
string `"r,g,b"` (injective on the byte triples `readByte` yields) with
insertion-ordered values is an ordered list extended only on a fresh key. -/
def imageStep (p : Png) (acc : List Color) (xy : Nat × Nat) : List Color :=
  if readByte p (4 * (p.width * xy.2 + xy.1) + 3) > 0 then
    if (⟨readByte p (4 * (p.width * xy.2 + xy.1)),
         readByte p (4 * (p.width * xy.2 + xy.1) + 1),
         readByte p (4 * (p.width * xy.2 + xy.1) + 2)⟩ : Color) ∈ acc then acc
    else acc ++ [⟨readByte p (4 * (p.width * xy.2 + xy.1)),
                  readByte p (4 * (p.width * xy.2 + xy.1) + 1),
                  readByte p (4 * (p.width * xy.2 + xy.1) + 2)⟩]
  else acc

/-- `parseImagePalette` from `palette-match.js` (and, synchronously, from
`sprite-pipeline.js`): scan row-major, keep every pixel with alpha > 0,
de-duplicated by exact (r,g,b), first-seen order preserved. -/
def parseImagePalette (p : Png) : List Color :=
  (scanPoints p.width p.height).foldl (imageStep p) []

/-- First-seen de-duplication against an accumulated `seen` list: the
reference point for what `parseImagePalette` computes. -/
def keepFirst (seen : List Color) : List Color → List Color
  | [] => []
  | c :: cs => if c ∈ seen then keepFirst seen cs else c :: keepFirst (c :: seen) cs

/-! ## Piskel transforms (`piskel-transform.js`) -/

/-- A crop rectangle, as the source builds it. -/
structure Rect where
  x : Nat
  y : Nat
  width : Nat
  height : Nat
deriving DecidableEq, Repr

/-- `cropPng`: a fresh `bounds.width × bounds.height` buffer copying the
rectangle at `(bounds.x, bounds.y)`; flat-index faithful
(`(png.width * (y + bounds.y) + (x + bounds.x)) << 2` plus channel). -/
def cropPng (p : Png) (b : Rect) : Png :=
  ⟨b.width, b.height, fun idx =>
    readByte p (4 * (p.width * (idx / 4 / b.width + b.y) +
      (idx / 4 % b.width + b.x)) + idx % 4)⟩

/-- `resizePng` (identical in `piskel-transform.js` and
`sprite-pipeline.js`): nearest-neighbour, destination `(x, y)` sampling
source `(floor(x*srcW/newW), floor(y*srcH/newH))`.  The source performs no
validation of `newWidth`/`newHeight` whatsoever. -/
def resizePng (p : Png) (newW newH : Nat) : Png :=
  ⟨newW, newH, fun idx =>
    readByte p (4 * (p.width * (idx / 4 / newW * p.height / newH) +
      idx / 4 % newW * p.width / newW) + idx % 4)⟩

/-- State of `findContentBounds`' scan: mins start at the buffer extent,
maxes at 0, plus the `hasContent` flag. -/
structure FCB where
  minX : Nat
  minY : Nat
  maxX : Nat
  maxY : Nat
  hasContent : Bool
deriving DecidableEq, Repr

/-- Expansion of the running bounds by one content pixel. -/
def fcbUpd (st : FCB) (xy : Nat × Nat) : FCB :=
  ⟨min st.minX xy.1, min st.minY xy.2, max st.maxX xy.1, max st.maxY xy.2, true⟩

/-- One scanned pixel of `findContentBounds`. -/
def fcbStep (p : Png) (st : FCB) (xy : Nat × Nat) : FCB :=
  if readByte p (4 * (p.width * xy.2 + xy.1) + 3) > 0 then fcbUpd st xy
  else st

/-- `findContentBounds`: tight bounds of the alpha-positive pixels, full
extent when there are none. -/
def findContentBounds (p : Png) : Rect :=
  let st := (scanPoints p.width p.height).foldl (fcbStep p) ⟨p.width, p.height, 0, 0, false⟩
  if st.hasContent = false then ⟨0, 0, p.width, p.height⟩
  else ⟨st.minX, st.minY, st.maxX - st.minX + 1, st.maxY - st.minY + 1⟩

/-- JS `Infinity`-seeded running minimum (`Math.min(Infinity, x) = x`). -/
def optMin : Option Nat → Nat → Option Nat
  | none, b => some b
  | some a, b => some (min a b)

/-- State of the global crop-bounds pass: `globalMinX`/`globalMinY` start at
`Infinity` (`none`), `globalMaxX`/`globalMaxY` at 0. -/
structure GB where
  minX : Option Nat
  minY : Option Nat
  maxX : Nat
  maxY : Nat
deriving DecidableEq, Repr

/-- One content pixel expanding the global bounds (frame-local coords). -/
def gbUpdate (st : GB) (xy : Nat × Nat) : GB :=
  ⟨optMin st.minX xy.1, optMin st.minY xy.2, max st.maxX xy.1, max st.maxY xy.2⟩

/-- Flat byte index of frame-local `(x, y)` of layout slot `i` in a
spritesheet with `fpr` tiles per row: the source's
`(png.width * (frameY + y) + (frameX + x)) << 2`.  The crop-bounds pass
computes `framesPerRow = Math.floor(png.width / frameWidth)` with no `|| 1`
guard; when that is 0 the JS arithmetic runs `i % 0 = NaN`,
`Math.floor(i / 0) = Infinity`, the sum becomes `NaN`, and `NaN << 2`
coerces to 0 — the loop then only ever tests byte 3 of the sheet. -/
def tileIdx (sheetW fw fh fpr i x y : Nat) : Nat :=
  if fpr = 0 then 0
  else 4 * (sheetW * (i / fpr * fh + y) + (i % fpr * fw + x))

/-- One chunk of the crop-bounds pass (first pass of `transformPiskel`,
lines 127-152): for every layout slot, scan the frame-local extent and
expand the global bounds at every alpha-positive byte. -/
def gbChunkFold (fw fh : Nat) (st : GB) (c : Chunk) : GB :=
  match c.base64PNG with
  | none => st
  | some p =>
    (List.range c.layout.length).foldl (fun st i =>
      (scanPoints fw fh).foldl (fun st xy =>
        if readByte p (tileIdx p.width fw fh (p.width / fw) i xy.1 xy.2 + 3) > 0 then
          gbUpdate st xy
        else st) st) st

/-- The crop-bounds pass of `transformPiskel`: one rectangle for the whole
document, `none` when `globalMinX <= globalMaxX && globalMinY <= globalMaxY`
fails (every frame fully transparent). -/
def globalCropBounds (doc : PiskelDoc) : Option Rect :=
  let st := doc.layers.foldl (fun st l =>
    (l.chunks.getD []).foldl (gbChunkFold doc.width doc.height) st) ⟨none, none, 0, 0⟩
  match st.minX, st.minY with
  | some mx, some my =>
    if mx ≤ st.maxX ∧ my ≤ st.maxY then
      some ⟨mx, my, st.maxX - mx + 1, st.maxY - my + 1⟩
    else none
  | _, _ => none

/-- Extract layout slot `f` of a spritesheet as a `fw × fh` frame, with
`fpr` tiles per row (the call sites that have the `|| 1` guard pass
`max (width / fw) 1`).  Flat-index faithful: the source reads
`(png.width * (srcFrameY + y) + (srcFrameX + x)) << 2 + ch`, which row-wraps
or runs off the buffer (reading 0) when the tile does not fit; `readByte`
reproduces both. -/
def extractFrame (p : Png) (fw fh fpr f : Nat) : Png :=
  ⟨fw, fh, fun idx =>
    readByte p (4 * (p.width * (f / fpr * fh + idx / 4 / fw) +
      (f % fpr * fw + idx / 4 % fw)) + idx % 4)⟩

/-- CLI options of `piskel-transform.js`.  `--scale` is floating point in
the source and is not modelled (no claim touches it). -/
structure TransformOptions where
  resize : Option (Nat × Nat)
  crop : Bool

/-- Per-frame pipeline of the transform pass (lines 195-220): extract (with
the `|| 1` guard), crop to the one global rectangle if present, then resize
when the dimensions still differ from the target. -/
def framePipeline (p : Png) (fw fh : Nat) (cropBounds : Option Rect)
    (newW newH : Nat) (f : Nat) : Png :=
  let fr := extractFrame p fw fh (max (p.width / fw) 1) f
  let fr :=
    match cropBounds with
    | some r => cropPng fr r
    | none => fr
  if fr.width ≠ newW ∨ fr.height ≠ newH then resizePng fr newW newH else fr

/-- Transform one chunk: build the new one-row spritesheet
(`newW * numFrames × newH`) from the per-frame pipeline and flatten the
layout to identity (`chunk.layout.map((_, idx) => [idx])`). -/
def transformChunk (fw fh : Nat) (cropBounds : Option Rect) (newW newH : Nat)
    (c : Chunk) : Chunk :=
  match c.base64PNG with
  | none => c
  | some p =>
    { layout := (List.range c.layout.length).map fun idx => [idx],
      base64PNG := some ⟨newW * c.layout.length, newH, fun idx =>
        readByte (framePipeline p fw fh cropBounds newW newH
            (idx / 4 % (newW * c.layout.length) / newW))
          (4 * (newW * (idx / 4 / (newW * c.layout.length)) +
            idx / 4 % (newW * c.layout.length) % newW) + idx % 4)⟩ }

/-- Target-size resolution of `transformPiskel` (lines 116-175, minus the
float `--scale` branch): an explicit `--resize` overrides everything, else
the crop rectangle's size, else the document's current size. -/
def resolveDims (doc : PiskelDoc) (opts : TransformOptions)
    (cropBounds : Option Rect) : Nat × Nat :=
  match opts.resize with
  | some wh => wh
  | none =>
    match cropBounds with
    | some r => (r.width, r.height)
    | none => (doc.width, doc.height)

/-- `transformPiskel` (file I/O stripped): compute the crop rectangle once
when `--crop` is given, resolve the target size, transform every chunk of
every layer with that same rectangle and size, and set the document's
declared dimensions. -/
def transformPiskel (doc : PiskelDoc) (opts : TransformOptions) : PiskelDoc :=
  let cropBounds := if opts.crop then globalCropBounds doc else none
  let wh := resolveDims doc opts cropBounds
  { width := wh.1, height := wh.2,
    layers := doc.layers.map fun l =>
      { l with chunks := l.chunks.map fun cs =>
          cs.map (transformChunk doc.width doc.height cropBounds wh.1 wh.2) } }

/-- Join of two content rectangles: the smallest rectangle containing both
(the "union" of the specification). -/
def rectJoin (r s : Rect) : Rect :=
  ⟨min r.x s.x, min r.y s.y,
    max (r.x + r.width - 1) (s.x + s.width - 1) - min r.x s.x + 1,
    max (r.y + r.height - 1) (s.y + s.height - 1) - min r.y s.y + 1⟩

/-- Content pixels (frame-local, scan order) of one frame buffer — the
pixels `findContentBounds` collects. -/
def frameContent (q : Png) : List (Nat × Nat) :=
  (scanPoints q.width q.height).filter fun xy =>
    decide (readByte q (4 * (q.width * xy.2 + xy.1) + 3) > 0)

/-- The frames of one chunk, decoded with the guarded `max (width / fw) 1`
tiles-per-row of the second pass. -/
def chunkFrames (fw fh : Nat) (c : Chunk) : List Png :=
  match c.base64PNG with
  | none => []
  | some p => (List.range c.layout.length).map fun i =>
      extractFrame p fw fh (max (p.width / fw) 1) i

/-- Every frame of every chunk of every layer, in traversal order. -/
def allFrames (doc : PiskelDoc) : List Png :=
  doc.layers.flatMap fun l =>
    (l.chunks.getD []).flatMap (chunkFrames doc.width doc.height)

/-- The frames that actually have content. -/
def contentFrames (doc : PiskelDoc) : List Png :=
  (allFrames doc).filter fun q => !(frameContent q).isEmpty

/-- Well-formedness of one chunk for the crop-bounds claim: a present
spritesheet is at least one frame wide (the data-model invariant "sheet
width is a multiple of frame width" implies it). -/
def chunkWF (fw : Nat) (c : Chunk) : Bool :=
  match c.base64PNG with
  | none => true
  | some p => decide (0 < fw ∧ fw ≤ p.width)

/-- Join of two `Infinity`-seeded minima. -/
def optJoin : Option Nat → Option Nat → Option Nat
  | none, b => b
  | some a, none => some a
  | some a, some b => some (min a b)

/-- Minimum of a list, `none` when empty (the `Infinity` seed). -/
def natsMin (xs : List Nat) : Option Nat := xs.foldl optMin none

/-- Maximum of a list, 0 when empty (the pass's `globalMax` seed). -/
def natsMax (xs : List Nat) : Nat := xs.foldl max 0

/-- All content pixels the crop-bounds pass should see: the content of every
decoded frame (frame-local coordinates), in traversal order. -/
def docPoints (doc : PiskelDoc) : List (Nat × Nat) :=
  (allFrames doc).flatMap frameContent

/-- The specification's scenario spritesheet: two 4×4 tiles in one row;
frame 0's content occupies local (0,0)-(1,1), frame 1's local (1,1)-(3,3). -/
def scenarioPng : Png :=
  ⟨8, 4, fun i =>
    if i % 4 = 3 then
      (if (i / 4 % 8 ≤ 1 ∧ i / 4 / 8 ≤ 1) ∨ (5 ≤ i / 4 % 8 ∧ 1 ≤ i / 4 / 8) then 255 else 0)
    else 0⟩

/-- The two-frame container of the specification's crop scenario. -/
def scenarioDoc : PiskelDoc :=
  ⟨4, 4,
    [{ chunks := some [{ layout := [[0], [1]], base64PNG := some scenarioPng }],
       base64PNG := none }]⟩

/-! ## PNG export (`piskel-to-png.js`) -/

/-- `extractFrames`: only `layers[0]` is read (`JSON.parse(undefined)`
throws when the document has no layers → `none`).  Each chunk contributes
one `frames[chunk.layout[i][0]] = framePng` assignment per layout slot,
recorded in order as (index, frame) pairs; an empty `layout[i]` indexes the
array with `undefined`, an assignment that never lands on an array slot
(`none`). -/
def extractFrames (doc : PiskelDoc) : Option (List (Option Nat × Png)) :=
  match doc.layers.head? with
  | none => none
  | some layer =>
    some ((layer.chunks.getD []).flatMap fun c =>
      match c.base64PNG with
      | none => []
      | some sheet =>
        (List.range c.layout.length).map fun i =>
          ((c.layout.getD i []).head?,
           extractFrame sheet doc.width doc.height
             (max (sheet.width / doc.width) 1) i))

/-- `frames.length` of the JS array built by those assignments. -/
def jsArrayLen (as : List (Option Nat × Png)) : Nat :=
  as.foldl (fun n a =>
    match a.1 with
    | some i => max n (i + 1)
    | none => n) 0

/-- `frames[i]` of that array: the last assignment to slot `i`, `undefined`
(`none`) for a hole. -/
def jsArrayGet (as : List (Option Nat × Png)) (i : Nat) : Option Png :=
  as.foldl (fun acc a =>
    match a.1 with
    | some j => if j = i then some a.2 else acc
    | none => acc) none

/-- `scalePng`: integer nearest-neighbour upscale; `scale === 1` returns the
input unchanged. -/
def scalePng (p : Png) (scale : Nat) : Png :=
  if scale = 1 then p
  else ⟨p.width * scale, p.height * scale, fun idx =>
    readByte p (4 * (p.width * (idx / 4 / (p.width * scale) / scale) +
      idx / 4 % (p.width * scale) / scale) + idx % 4)⟩

/-- `createSpritesheet`: `null` for an empty frame array; a hole throws a
`TypeError` (at `frames[0].width` or at the copy loop) → `none`; otherwise
tile the frames row-major into `cols = columns || frames.length` columns
using frame 0's dimensions. -/
def createSpritesheet (as : List (Option Nat × Png)) (columns : Option Nat) :
    Option Png :=
  if jsArrayLen as = 0 then none
  else
    match jsArrayGet as 0 with
    | none => none
    | some f0 =>
      if (List.range (jsArrayLen as)).all (fun i => (jsArrayGet as i).isSome) then
        some ⟨f0.width * (match columns with
            | some c => if c = 0 then jsArrayLen as else c
            | none => jsArrayLen as),
          f0.height * ((jsArrayLen as + (match columns with
            | some c => if c = 0 then jsArrayLen as else c
            | none => jsArrayLen as) - 1) / (match columns with
            | some c => if c = 0 then jsArrayLen as else c
            | none => jsArrayLen as)),
          fun idx =>
            let cols := match columns with
              | some c => if c = 0 then jsArrayLen as else c
              | none => jsArrayLen as
            let gx := idx / 4 % (f0.width * cols)
            let gy := idx / 4 / (f0.width * cols)
            let i := gy / f0.height * cols + gx / f0.width
            if i < jsArrayLen as then
              match jsArrayGet as i with
              | some fr =>
                readByte fr (4 * (f0.width * (gy % f0.height) + gx % f0.width) + idx % 4)
              | none => 0
            else 0⟩
      else none

/-- CLI options of `piskel-to-png.js` (`--scale` is `parseInt(…) || 1`). -/
structure ExportOptions where
  frame : Option Nat
  columns : Option Nat
  scale : Nat

/-- `exportPiskel` (file I/O stripped): single frame (range-checked, a hole
throws "No frames found") or spritesheet, then the optional integer scale. -/
def exportPiskel (doc : PiskelDoc) (opts : ExportOptions) : Option Png :=
  match extractFrames doc with
  | none => none
  | some frames =>
    match
      (match opts.frame with
       | some f => if f < jsArrayLen frames then jsArrayGet frames f else none
       | none => createSpritesheet frames opts.columns) with
    | none => none
    | some png => some (if opts.scale = 0 then png else scalePng png opts.scale)

/-! ## Theorems -/

theorem FirstMin.mem {r g b : Nat} {l : List Color} {c : Color}
    (h : FirstMin r g b l c) : c ∈ l := by
  obtain ⟨l₁, l₂, rfl, -, -⟩ := h
  simp

theorem FirstMin.le_all {r g b : Nat} {l : List Color} {c : Color}
    (h : FirstMin r g b l c) : ∀ e ∈ l, distTo r g b c ≤ distTo r g b e := by
  obtain ⟨l₁, l₂, rfl, h₁, h₂⟩ := h
  intro e he
  rcases List.mem_append.1 he with h | h
  · exact le_of_lt (h₁ e h)
  · rcases List.mem_cons.1 h with rfl | h
    · exact le_refl _
    · exact h₂ e h

private theorem findNearestAux_cons (r g b : Nat) (m : WithTop Nat) (nr : Option Color)
    (c : Color) (rest : List Color) :
    findNearestAux r g b m nr (c :: rest) =
      if (distTo r g b c : WithTop Nat) < m then
        (if distTo r g b c = 0 then some c
         else findNearestAux r g b (distTo r g b c : WithTop Nat) (some c) rest)
      else findNearestAux r g b m nr rest := rfl

private theorem findNearestAux_firstMin (r g b : Nat) :
    ∀ (rest : List Color) (c : Color), 0 < distTo r g b c →
      ∃ res, findNearestAux r g b (distTo r g b c : WithTop Nat) (some c) rest = some res ∧
        FirstMin r g b (c :: rest) res := by
  intro rest
  induction rest with
  | nil =>
    intro c hm
    exact ⟨c, rfl, [], [], rfl, by simp, by simp⟩
  | cons e rest ih =>
    intro c hm
    rw [findNearestAux_cons]
    by_cases hlt : distTo r g b e < distTo r g b c
    · rw [if_pos (by exact_mod_cast hlt)]
      by_cases hz : distTo r g b e = 0
      · rw [if_pos hz]
        refine ⟨e, rfl, [c], rest, rfl, ?_, ?_⟩
        · intro x hx
          rcases List.mem_singleton.1 hx with rfl
          omega
        · intro x hx; omega
      · rw [if_neg hz]
        obtain ⟨res, hres, l₁, l₂, hsplit, hbefore, hafter⟩ := ih e (Nat.pos_of_ne_zero hz)
        refine ⟨res, hres, c :: l₁, l₂, by rw [hsplit, List.cons_append], ?_, hafter⟩
        intro x hx
        rcases List.mem_cons.1 hx with rfl | hx
        · calc distTo r g b res ≤ distTo r g b e := by
                refine FirstMin.le_all ⟨l₁, l₂, hsplit, hbefore, hafter⟩ e ?_
                simp
            _ < distTo r g b x := hlt
        · exact hbefore x hx
    · rw [if_neg (by exact_mod_cast hlt)]
      obtain ⟨res, hres, l₁, l₂, hsplit, hbefore, hafter⟩ := ih c hm
      cases l₁ with
      | nil =>
        simp only [List.nil_append, List.cons.injEq] at hsplit
        obtain ⟨rfl, rfl⟩ := hsplit
        refine ⟨c, hres, [], e :: rest, by simp, by simp, ?_⟩
        intro x hx
        rcases List.mem_cons.1 hx with rfl | hx
        · omega
        · exact hafter x hx
      | cons c₀ l₁' =>
        simp only [List.cons_append, List.cons.injEq] at hsplit
        obtain ⟨rfl, hsplit'⟩ := hsplit
        refine ⟨res, hres, c :: e :: l₁', l₂, by simp [hsplit'], ?_, hafter⟩
        intro x hx
        rcases List.mem_cons.1 hx with rfl | hx
        · exact hbefore x (by simp)
        rcases List.mem_cons.1 hx with rfl | hx
        · have hc : distTo r g b res < distTo r g b c := hbefore c (by simp)
          omega
        · exact hbefore x (by simp [hx])

/-- `findNearestColor` on a non-empty palette returns the first entry (in load
order) achieving the minimum redmean distance. -/
theorem findNearestColor_firstMin (r g b : Nat) (palette : List Color)
    (h : palette ≠ []) :
    ∃ res, findNearestColor r g b palette = some res ∧ FirstMin r g b palette res := by
  obtain ⟨c, rest, rfl⟩ := List.exists_cons_of_ne_nil h
  rw [findNearestColor, List.head?_cons, findNearestAux]
  have hlt : ((distTo r g b c : Nat) : WithTop Nat) < ⊤ := WithTop.coe_lt_top _
  simp only [hlt, if_true]
  by_cases hz : distTo r g b c = 0
  · refine ⟨c, by simp [hz], [], rest, rfl, by simp, ?_⟩
    intro x hx; omega
  · simp only [hz, if_false]
    exact findNearestAux_firstMin r g b rest c (Nat.pos_of_ne_zero hz)

private theorem findNearestAux_shortCircuit (r g b : Nat) (c : Color)
    (hc : distTo r g b c = 0) :
    ∀ (p₁ : List Color) (p₂ p₂' : List Color) (m : WithTop Nat) (nr : Option Color),
      (∀ e ∈ p₁, distTo r g b e ≠ 0) → 0 < m →
      findNearestAux r g b m nr (p₁ ++ c :: p₂) = findNearestAux r g b m nr (p₁ ++ c :: p₂') := by
  intro p₁
  induction p₁ with
  | nil =>
    intro p₂ p₂' m nr hall hm
    simp only [List.nil_append]
    have hlt : ((distTo r g b c : Nat) : WithTop Nat) < m := by
      rw [hc]; exact_mod_cast hm
    rw [findNearestAux_cons, findNearestAux_cons, if_pos hlt, if_pos hlt, if_pos hc, if_pos hc]
  | cons e p₁' ih =>
    intro p₂ p₂' m nr hall hm
    have he : distTo r g b e ≠ 0 := hall e (by simp)
    simp only [List.cons_append]
    rw [findNearestAux, findNearestAux]
    by_cases hlt : ((distTo r g b e : Nat) : WithTop Nat) < m
    · simp only [hlt, if_true, he, if_false]
      exact ih p₂ p₂' _ _ (fun x hx => hall x (by simp [hx]))
        (by exact_mod_cast Nat.pos_of_ne_zero he)
    · simp only [hlt, if_false]
      exact ih p₂ p₂' m nr (fun x hx => hall x (by simp [hx])) hm

/-- A palette entry at distance 0 stops the scan: nothing after it can affect
the result. -/
theorem findNearestColor_shortCircuit (r g b : Nat) (p₁ p₂ : List Color) (c : Color)
    (hall : ∀ e ∈ p₁, distTo r g b e ≠ 0) (hc : distTo r g b c = 0) :
    findNearestColor r g b (p₁ ++ c :: p₂) = findNearestColor r g b (p₁ ++ [c]) := by
  rw [findNearestColor, findNearestColor]
  have hhead : (p₁ ++ c :: p₂).head? = (p₁ ++ [c]).head? := by
    cases p₁ <;> simp
  rw [hhead]
  exact findNearestAux_shortCircuit r g b c hc p₁ p₂ [] ⊤ _ hall (by simp)

theorem sqDiff_eq_zero {a b : Nat} : sqDiff a b = 0 ↔ a = b := by
  rw [sqDiff, mul_self_eq_zero]
  omega

/-- For byte-range inputs the redmean distance vanishes exactly on equal
colours. -/
theorem colorDistance_eq_zero {r1 g1 b1 r2 g2 b2 : Nat}
    (hr1 : r1 < 256) (hr2 : r2 < 256) :
    colorDistance r1 g1 b1 r2 g2 b2 = 0 ↔ (r1 = r2 ∧ g1 = g2 ∧ b1 = b2) := by
  rw [colorDistance]
  constructor
  · intro h
    have h1 : (512 + (r1 + r2) / 2) * sqDiff r1 r2 / 256 = 0 := by omega
    have h2 : 4 * sqDiff g1 g2 = 0 := by omega
    have h3 : (767 - (r1 + r2) / 2) * sqDiff b1 b2 / 256 = 0 := by omega
    have hs1 : sqDiff r1 r2 = 0 := by
      by_contra hne
      have : 512 + (r1 + r2) / 2 ≤ (512 + (r1 + r2) / 2) * sqDiff r1 r2 :=
        Nat.le_mul_of_pos_right _ (Nat.pos_of_ne_zero hne)
      rw [Nat.div_eq_zero_iff (by norm_num : 0 < 256)] at h1
      omega
    have hs3 : sqDiff b1 b2 = 0 := by
      by_contra hne
      have hm : (r1 + r2) / 2 ≤ 255 := by omega
      have : 767 - (r1 + r2) / 2 ≤ (767 - (r1 + r2) / 2) * sqDiff b1 b2 :=
        Nat.le_mul_of_pos_right _ (Nat.pos_of_ne_zero hne)
      rw [Nat.div_eq_zero_iff (by norm_num : 0 < 256)] at h3
      omega
    have hs2 : sqDiff g1 g2 = 0 := by omega
    exact ⟨sqDiff_eq_zero.1 hs1, sqDiff_eq_zero.1 hs2, sqDiff_eq_zero.1 hs3⟩
  · rintro ⟨rfl, rfl, rfl⟩
    simp [sqDiff]

theorem distTo_self_eq_zero (c : Color) : distTo c.r c.g c.b c = 0 := by
  simp [distTo, colorDistance, sqDiff]

/-- Matching a colour that already sits in the palette returns an entry with
exactly the same byte triple. -/
theorem findNearestColor_of_mem {palette : List Color} {q : Color}
    (hq : q ∈ palette) (hb : PaletteBytes palette) :
    ∃ res, findNearestColor q.r q.g q.b palette = some res ∧
      res.r = q.r ∧ res.g = q.g ∧ res.b = q.b := by
  obtain ⟨res, hres, hfm⟩ :=
    findNearestColor_firstMin q.r q.g q.b palette (List.ne_nil_of_mem hq)
  refine ⟨res, hres, ?_⟩
  have hle : distTo q.r q.g q.b res ≤ distTo q.r q.g q.b q := hfm.le_all q hq
  rw [distTo_self_eq_zero] at hle
  have hz : distTo q.r q.g q.b res = 0 := Nat.le_zero.1 hle
  obtain ⟨hqr, -, -⟩ := hb q hq
  have := (colorDistance_eq_zero hqr (hb res hfm.mem).1).1 hz
  tauto

theorem readByte_lt (p : Png) (i : Nat) : readByte p i < 256 := by
  rw [readByte]
  split
  · exact Nat.mod_lt _ (by norm_num)
  · norm_num

theorem readByte_mod (p : Png) (i : Nat) : readByte p i % 256 = readByte p i :=
  Nat.mod_eq_of_lt (readByte_lt p i)

theorem findNearestColor_isSome (r g b : Nat) (palette : List Color) (h : palette ≠ []) :
    ∃ res, findNearestColor r g b palette = some res := by
  obtain ⟨res, hres, -⟩ := findNearestColor_firstMin r g b palette h
  exact ⟨res, hres⟩

theorem CacheCoherent.tail {palette : List Color} {kc : Nat × Color}
    {rest : List (Nat × Color)} (h : CacheCoherent palette (kc :: rest)) :
    CacheCoherent palette rest :=
  fun x hx => h x (List.mem_cons_of_mem _ hx)

theorem CacheCoherent.cons {palette : List Color} {cache : List (Nat × Color)}
    (h : CacheCoherent palette cache) {r g b : Nat} {v : Color}
    (hr : r < 256) (hg : g < 256) (hb : b < 256)
    (hv : findNearestColor r g b palette = some v) :
    CacheCoherent palette ((r * 65536 + g * 256 + b, v) :: cache) := by
  intro kc hkc
  rcases List.mem_cons.1 hkc with rfl | hkc
  · exact ⟨r, g, b, hr, hg, hb, rfl, hv⟩
  · exact h kc hkc

/-- A coherent cache hit returns exactly what `findNearestColor` would. -/
theorem lookup_coherent {palette : List Color} :
    ∀ {cache : List (Nat × Color)}, CacheCoherent palette cache →
      ∀ {r g b : Nat}, r < 256 → g < 256 → b < 256 → ∀ {v : Color},
        cache.lookup (r * 65536 + g * 256 + b) = some v →
        findNearestColor r g b palette = some v := by
  intro cache
  induction cache with
  | nil => intro _ r g b _ _ _ v hl; simp [List.lookup] at hl
  | cons kc rest ih =>
    intro hc r g b hr hg hb v hl
    obtain ⟨k1, v1⟩ := kc
    rw [List.lookup] at hl
    cases hbeq : (r * 65536 + g * 256 + b == k1) with
    | false =>
      rw [hbeq] at hl
      exact ih hc.tail hr hg hb hl
    | true =>
      rw [hbeq] at hl
      have hk : k1 = r * 65536 + g * 256 + b := (beq_iff_eq.1 hbeq).symm
      obtain ⟨r', g', b', hr', hg', hb', hkey, hfind⟩ := hc (k1, v1) (by simp)
      simp only at hkey hfind
      have heq : r' = r ∧ g' = g ∧ b' = b := by omega
      obtain ⟨rfl, rfl, rfl⟩ := heq
      rw [hfind]
      exact hl

/-- With a coherent cache the cached pixel step and the cache-free pixel step
produce identical buffers and `modified` flags, and coherence is preserved. -/
theorem matchPixel_fresh_eq {palette : List Color} (hpal : palette ≠ [])
    {cache : ColorCache} (hc : CacheCoherent palette cache)
    (p : Png) (m : Bool) (k : Nat) :
    ∃ p₁ cache₁ m₁,
      matchPixel palette (p, cache, m) k = .ok (p₁, cache₁, m₁) ∧
      matchPixelFresh palette (p, m) k = .ok (p₁, m₁) ∧
      CacheCoherent palette cache₁ := by
  rw [matchPixel, matchPixelFresh]
  by_cases ha : readByte p (4 * k + 3) = 0
  · exact ⟨p, cache, m, by simp [ha], by simp [ha], hc⟩
  · simp only [if_neg ha]
    rcases hl : cache.lookup
        (readByte p (4 * k) * 65536 + readByte p (4 * k + 1) * 256 + readByte p (4 * k + 2))
      with _ | v
    · obtain ⟨n, hn⟩ := findNearestColor_isSome
        (readByte p (4 * k)) (readByte p (4 * k + 1)) (readByte p (4 * k + 2)) palette hpal
      simp only [hl, hn]
      by_cases hne : readByte p (4 * k) ≠ n.r ∨ readByte p (4 * k + 1) ≠ n.g ∨
          readByte p (4 * k + 2) ≠ n.b
      · refine ⟨writeRgb p (4 * k) n, _, true, by rw [if_pos hne], by rw [if_pos hne], ?_⟩
        exact hc.cons (readByte_lt _ _) (readByte_lt _ _) (readByte_lt _ _) hn
      · refine ⟨p, _, m, by rw [if_neg hne], by rw [if_neg hne], ?_⟩
        exact hc.cons (readByte_lt _ _) (readByte_lt _ _) (readByte_lt _ _) hn
    · have hv : findNearestColor (readByte p (4 * k)) (readByte p (4 * k + 1))
          (readByte p (4 * k + 2)) palette = some v :=
        lookup_coherent hc (readByte_lt _ _) (readByte_lt _ _) (readByte_lt _ _) hl
      simp only [hl, hv]
      by_cases hne : readByte p (4 * k) ≠ v.r ∨ readByte p (4 * k + 1) ≠ v.g ∨
          readByte p (4 * k + 2) ≠ v.b
      · exact ⟨writeRgb p (4 * k) v, cache, true, by rw [if_pos hne], by rw [if_pos hne], hc⟩
      · exact ⟨p, cache, m, by rw [if_neg hne], by rw [if_neg hne], hc⟩

/-- Fold version of `matchPixel_fresh_eq`: over any index list, the cached run
and the cache-free run produce the same buffer and flag. -/
theorem matchFold_fresh_eq {palette : List Color} (hpal : palette ≠ []) :
    ∀ (ks : List Nat) (p : Png) (cache : ColorCache) (m : Bool),
      CacheCoherent palette cache →
      ∃ p' cache' m',
        foldSteps (matchPixel palette) (p, cache, m) ks = .ok (p', cache', m') ∧
        foldSteps (matchPixelFresh palette) (p, m) ks = .ok (p', m') ∧
        CacheCoherent palette cache' := by
  intro ks
  induction ks with
  | nil => intro p cache m hc; exact ⟨p, cache, m, rfl, rfl, hc⟩
  | cons k ks ih =>
    intro p cache m hc
    obtain ⟨p₁, cache₁, m₁, hstep, hstepF, hc₁⟩ := matchPixel_fresh_eq hpal hc p m k
    obtain ⟨p', cache', m', hfold, hfoldF, hc'⟩ := ih p₁ cache₁ m₁ hc₁
    exact ⟨p', cache', m', by rw [foldSteps, hstep]; exact hfold,
      by rw [foldSteps, hstepF]; exact hfoldF, hc'⟩

/-- Whole-buffer version: with a coherent cache, `matchPngToPalette` and the
cache-free `matchPngFresh` produce identical buffers. -/
theorem matchPngToPalette_fresh_eq {palette : List Color} (hpal : palette ≠ [])
    (p : Png) {cache : ColorCache} (hc : CacheCoherent palette cache) :
    ∃ p' cache' m',
      matchPngToPalette p palette cache = .ok (p', cache', m') ∧
      matchPngFresh p palette = .ok (p', m') ∧
      CacheCoherent palette cache' :=
  matchFold_fresh_eq hpal (List.range (p.width * p.height)) p cache false hc

theorem matchChunks_fresh_eq {palette : List Color} (hpal : palette ≠ []) :
    ∀ (cs : List Chunk) (cache : ColorCache), CacheCoherent palette cache →
      ∃ cs' cache', matchChunks palette cache cs = some (cs', cache') ∧
        matchChunksFresh palette cs = some cs' ∧ CacheCoherent palette cache' := by
  intro cs
  induction cs with
  | nil => intro cache hc; exact ⟨[], cache, rfl, rfl, hc⟩
  | cons c cs ih =>
    intro cache hc
    rcases himg : c.base64PNG with _ | p
    · obtain ⟨cs', cache', hrun, hrunF, hc'⟩ := ih cache hc
      exact ⟨c :: cs', cache', by simp [matchChunks, himg, hrun],
        by simp [matchChunksFresh, himg, hrunF], hc'⟩
    · obtain ⟨p', cache₁, m₁, hpng, hpngF, hc₁⟩ := matchPngToPalette_fresh_eq hpal p hc
      obtain ⟨cs', cache', hrun, hrunF, hc'⟩ := ih cache₁ hc₁
      exact ⟨{ c with base64PNG := some p' } :: cs', cache',
        by simp [matchChunks, himg, hpng, hrun],
        by simp [matchChunksFresh, himg, hpngF, hrunF], hc'⟩

theorem matchLayer_fresh_eq {palette : List Color} (hpal : palette ≠ [])
    (l : Layer) (cache : ColorCache) (hc : CacheCoherent palette cache) :
    ∃ l' cache', matchLayer palette cache l = some (l', cache') ∧
      matchLayerFresh palette l = some l' ∧ CacheCoherent palette cache' := by
  rcases hcs : l.chunks with _ | cs
  · rcases himg : l.base64PNG with _ | p
    · exact ⟨l, cache, by simp [matchLayer, hcs, himg], by simp [matchLayerFresh, hcs, himg], hc⟩
    · obtain ⟨p', cache₁, m₁, hpng, hpngF, hc₁⟩ := matchPngToPalette_fresh_eq hpal p hc
      exact ⟨{ l with base64PNG := some p' }, cache₁,
        by simp [matchLayer, hcs, himg, hpng], by simp [matchLayerFresh, hcs, himg, hpngF], hc₁⟩
  · obtain ⟨cs', cache', hrun, hrunF, hc'⟩ := matchChunks_fresh_eq hpal cs cache hc
    exact ⟨{ l with chunks := some cs' }, cache',
      by simp [matchLayer, hcs, hrun], by simp [matchLayerFresh, hcs, hrunF], hc'⟩

theorem matchLayers_fresh_eq {palette : List Color} (hpal : palette ≠ []) :
    ∀ (ls : List Layer) (cache : ColorCache), CacheCoherent palette cache →
      ∃ ls' cache', matchLayers palette cache ls = some (ls', cache') ∧
        matchLayersFresh palette ls = some ls' ∧ CacheCoherent palette cache' := by
  intro ls
  induction ls with
  | nil => intro cache hc; exact ⟨[], cache, rfl, rfl, hc⟩
  | cons l ls ih =>
    intro cache hc
    obtain ⟨l', cache₁, hl, hlF, hc₁⟩ := matchLayer_fresh_eq hpal l cache hc
    obtain ⟨ls', cache', hrun, hrunF, hc'⟩ := ih cache₁ hc₁
    exact ⟨l' :: ls', cache', by simp [matchLayers, hl, hrun],
      by simp [matchLayersFresh, hlF, hrunF], hc'⟩

theorem readByte_writeRgb_ne (p : Png) (i : Nat) (c : Color) (j : Nat)
    (h0 : j ≠ i) (h1 : j ≠ i + 1) (h2 : j ≠ i + 2) :
    readByte (writeRgb p i c) j = readByte p j := by
  show (if j < 4 * (p.width * p.height) then
      (if j = i then c.r else if j = i + 1 then c.g else if j = i + 2 then c.b
       else p.data j) % 256 else 0) = readByte p j
  rw [if_neg h0, if_neg h1, if_neg h2, readByte]

theorem readByte_writeRgb_r (p : Png) (i : Nat) (c : Color)
    (h : i + 3 < 4 * (p.width * p.height)) :
    readByte (writeRgb p i c) i = c.r % 256 := by
  show (if i < 4 * (p.width * p.height) then
      (if i = i then c.r else if i = i + 1 then c.g else if i = i + 2 then c.b
       else p.data i) % 256 else 0) = c.r % 256
  rw [if_pos (by omega), if_pos rfl]

theorem readByte_writeRgb_g (p : Png) (i : Nat) (c : Color)
    (h : i + 3 < 4 * (p.width * p.height)) :
    readByte (writeRgb p i c) (i + 1) = c.g % 256 := by
  show (if i + 1 < 4 * (p.width * p.height) then
      (if i + 1 = i then c.r else if i + 1 = i + 1 then c.g else if i + 1 = i + 2 then c.b
       else p.data (i + 1)) % 256 else 0) = c.g % 256
  rw [if_pos (by omega), if_neg (by omega), if_pos rfl]

theorem readByte_writeRgb_b (p : Png) (i : Nat) (c : Color)
    (h : i + 3 < 4 * (p.width * p.height)) :
    readByte (writeRgb p i c) (i + 2) = c.b % 256 := by
  show (if i + 2 < 4 * (p.width * p.height) then
      (if i + 2 = i then c.r else if i + 2 = i + 1 then c.g else if i + 2 = i + 2 then c.b
       else p.data (i + 2)) % 256 else 0) = c.b % 256
  rw [if_pos (by omega), if_neg (by omega), if_neg (by omega), if_pos rfl]

/-- A nonzero alpha byte puts the whole pixel inside the buffer. -/
theorem inBounds_of_alpha {p : Png} {k : Nat} (ha : readByte p (4 * k + 3) ≠ 0) :
    4 * k + 3 < 4 * (p.width * p.height) := by
  by_contra hge
  exact ha (by rw [readByte, if_neg hge])

/-- `matchedByte` at the four channels of an opaque pixel. -/
theorem matchedByte_at (palette : List Color) (p : Png) (k : Nat)
    (ha : alphaAt p k ≠ 0) {n₀ : Color}
    (hn : findNearestColor (readByte p (4 * k)) (readByte p (4 * k + 1))
      (readByte p (4 * k + 2)) palette = some n₀) :
    matchedByte palette p (4 * k) = n₀.r % 256 ∧
    matchedByte palette p (4 * k + 1) = n₀.g % 256 ∧
    matchedByte palette p (4 * k + 2) = n₀.b % 256 ∧
    matchedByte palette p (4 * k + 3) = readByte p (4 * k + 3) := by
  have h0 : (4 * k) / 4 = k := by omega
  have h1 : (4 * k + 1) / 4 = k := by omega
  have h2 : (4 * k + 2) / 4 = k := by omega
  have h3 : (4 * k + 3) / 4 = k := by omega
  refine ⟨?_, ?_, ?_, ?_⟩
  · simp only [matchedByte, h0]
    rw [if_neg (by push_neg; exact ⟨by omega, ha⟩), hn]
    have hm : 4 * k % 4 = 0 := by omega
    simp [hm]
  · simp only [matchedByte, h1]
    rw [if_neg (by push_neg; exact ⟨by omega, ha⟩), hn]
    have hm : (4 * k + 1) % 4 = 1 := by omega
    simp [hm]
  · simp only [matchedByte, h2]
    rw [if_neg (by push_neg; exact ⟨by omega, ha⟩), hn]
    have hm : (4 * k + 2) % 4 = 2 := by omega
    simp [hm]
  · simp only [matchedByte, h3]
    rw [if_pos (Or.inl (by omega))]

/-- `matchedByte` depends only on the bytes of the pixel it sits in. -/
theorem matchedByte_congr {palette : List Color} {p₁ p : Png} {j : Nat}
    (h : ∀ c, c < 4 → readByte p₁ (4 * (j / 4) + c) = readByte p (4 * (j / 4) + c)) :
    matchedByte palette p₁ j = matchedByte palette p j := by
  have hj : readByte p₁ j = readByte p j := by
    have := h (j % 4) (by omega)
    rwa [show 4 * (j / 4) + j % 4 = j by omega] at this
  have h0 : readByte p₁ (4 * (j / 4)) = readByte p (4 * (j / 4)) := by
    simpa using h 0 (by norm_num)
  have h1 := h 1 (by norm_num)
  have h2 := h 2 (by norm_num)
  have h3 := h 3 (by norm_num)
  simp only [matchedByte, alphaAt, hj, h0, h1, h2, h3]

theorem matchPixel_png_cases (palette : List Color) (p : Png) (cache : ColorCache)
    (m : Bool) (k : Nat) (st' : Png × ColorCache × Bool)
    (h : matchPixel palette (p, cache, m) k = .ok st' ∨
         matchPixel palette (p, cache, m) k = .thrown st') :
    st'.1 = p ∨ (readByte p (4 * k + 3) ≠ 0 ∧ ∃ n, st'.1 = writeRgb p (4 * k) n) := by
  by_cases ha : readByte p (4 * k + 3) = 0
  · rcases h with h | h
    · rw [matchPixel] at h
      simp only [if_pos ha] at h
      cases h
      exact Or.inl rfl
    · rw [matchPixel] at h
      simp only [if_pos ha] at h
      cases h
  · rcases hl : cache.lookup (readByte p (4 * k) * 65536 + readByte p (4 * k + 1) * 256 +
        readByte p (4 * k + 2)) with _ | v
    · rcases hn : findNearestColor (readByte p (4 * k)) (readByte p (4 * k + 1))
          (readByte p (4 * k + 2)) palette with _ | n
      · rcases h with h | h
        · rw [matchPixel] at h
          simp only [if_neg ha, hl, hn] at h
          cases h
        · rw [matchPixel] at h
          simp only [if_neg ha, hl, hn] at h
          cases h
          exact Or.inl rfl
      · rcases h with h | h
        · rw [matchPixel] at h
          simp only [if_neg ha, hl, hn] at h
          by_cases hne : readByte p (4 * k) ≠ n.r ∨ readByte p (4 * k + 1) ≠ n.g ∨
              readByte p (4 * k + 2) ≠ n.b
          · rw [if_pos hne] at h
            cases h
            exact Or.inr ⟨ha, n, rfl⟩
          · rw [if_neg hne] at h
            cases h
            exact Or.inl rfl
        · rw [matchPixel] at h
          simp only [if_neg ha, hl, hn] at h
          by_cases hne : readByte p (4 * k) ≠ n.r ∨ readByte p (4 * k + 1) ≠ n.g ∨
              readByte p (4 * k + 2) ≠ n.b
          · rw [if_pos hne] at h; cases h
          · rw [if_neg hne] at h; cases h
    · rcases h with h | h
      · rw [matchPixel] at h
        simp only [if_neg ha, hl] at h
        by_cases hne : readByte p (4 * k) ≠ v.r ∨ readByte p (4 * k + 1) ≠ v.g ∨
            readByte p (4 * k + 2) ≠ v.b
        · rw [if_pos hne] at h
          cases h
          exact Or.inr ⟨ha, v, rfl⟩
        · rw [if_neg hne] at h
          cases h
          exact Or.inl rfl
      · rw [matchPixel] at h
        simp only [if_neg ha, hl] at h
        by_cases hne : readByte p (4 * k) ≠ v.r ∨ readByte p (4 * k + 1) ≠ v.g ∨
            readByte p (4 * k + 2) ≠ v.b
        · rw [if_pos hne] at h; cases h
        · rw [if_neg hne] at h; cases h

/-- One pixel step never touches an alpha byte, never touches a
fully-transparent pixel, and keeps the buffer's dimensions. -/
theorem matchPixel_alpha (palette : List Color) (p : Png) (cache : ColorCache)
    (m : Bool) (k : Nat) (st' : Png × ColorCache × Bool)
    (h : matchPixel palette (p, cache, m) k = .ok st' ∨
         matchPixel palette (p, cache, m) k = .thrown st') :
    st'.1.width = p.width ∧ st'.1.height = p.height ∧
    (∀ j, j % 4 = 3 → readByte st'.1 j = readByte p j) ∧
    (∀ k', readByte p (4 * k' + 3) = 0 →
      ∀ c, c < 4 → readByte st'.1 (4 * k' + c) = readByte p (4 * k' + c)) := by
  rcases matchPixel_png_cases palette p cache m k st' h with hp | ⟨hak, n, hp⟩
  · rw [hp]
    exact ⟨rfl, rfl, fun _ _ => rfl, fun _ _ _ _ => rfl⟩
  · rw [hp]
    refine ⟨rfl, rfl, ?_, ?_⟩
    · intro j hj
      apply readByte_writeRgb_ne <;> omega
    · intro k' h0 c hc
      have hkk : k' ≠ k := fun he => hak (by rw [← he]; exact h0)
      apply readByte_writeRgb_ne <;> omega

/-- Fold version of `matchPixel_alpha`, for any pixel list, palette and
cache, through both normal and thrown outcomes. -/
theorem matchFold_alpha (palette : List Color) :
    ∀ (ks : List Nat) (p : Png) (cache : ColorCache) (m : Bool)
      (st' : Png × ColorCache × Bool),
      (foldSteps (matchPixel palette) (p, cache, m) ks = .ok st' ∨
       foldSteps (matchPixel palette) (p, cache, m) ks = .thrown st') →
      st'.1.width = p.width ∧ st'.1.height = p.height ∧
      (∀ j, j % 4 = 3 → readByte st'.1 j = readByte p j) ∧
      (∀ k', readByte p (4 * k' + 3) = 0 →
        ∀ c, c < 4 → readByte st'.1 (4 * k' + c) = readByte p (4 * k' + c)) := by
  intro ks
  induction ks with
  | nil =>
    intro p cache m st' h
    rcases h with h | h
    · cases h
      exact ⟨rfl, rfl, fun _ _ => rfl, fun _ _ _ _ => rfl⟩
    · cases h
  | cons k ks ih =>
    intro p cache m st' h
    cases hstep : matchPixel palette (p, cache, m) k with
    | thrown st₁ =>
      rcases h with h | h
      · rw [foldSteps, hstep] at h
        cases h
      · rw [foldSteps, hstep] at h
        cases h
        exact matchPixel_alpha palette p cache m k st' (Or.inr hstep)
    | ok st₁ =>
      obtain ⟨p₁, cache₁, m₁⟩ := st₁
      have hfold : (foldSteps (matchPixel palette) (p₁, cache₁, m₁) ks = .ok st' ∨
          foldSteps (matchPixel palette) (p₁, cache₁, m₁) ks = .thrown st') := by
        rcases h with h | h
        · rw [foldSteps, hstep] at h; exact Or.inl h
        · rw [foldSteps, hstep] at h; exact Or.inr h
      obtain ⟨hw₁, hh₁, halpha₁, htrans₁⟩ :=
        matchPixel_alpha palette p cache m k (p₁, cache₁, m₁) (Or.inl hstep)
      obtain ⟨hw, hh, halpha, htrans⟩ := ih p₁ cache₁ m₁ st' hfold
      refine ⟨by rw [hw, hw₁], by rw [hh, hh₁], ?_, ?_⟩
      · intro j hj
        rw [halpha j hj, halpha₁ j hj]
      · intro k' h0 c hc
        have h0₁ : readByte p₁ (4 * k' + 3) = 0 := by
          rw [htrans₁ k' h0 3 (by norm_num)]
          exact h0
        rw [htrans k' h0₁ c hc, htrans₁ k' h0 c hc]

/-- One cache-free pixel step: the processed pixel takes its `matchedByte`
values, everything else is untouched. -/
theorem matchPixelFresh_bytes {palette : List Color} (hpal : palette ≠ [])
    (p : Png) (m : Bool) (k : Nat) :
    ∃ p₁ m₁, matchPixelFresh palette (p, m) k = .ok (p₁, m₁) ∧
      p₁.width = p.width ∧ p₁.height = p.height ∧
      ∀ j, readByte p₁ j = if j / 4 = k then matchedByte palette p j else readByte p j := by
  by_cases ha : readByte p (4 * k + 3) = 0
  · refine ⟨p, m, by rw [matchPixelFresh]; simp [ha], rfl, rfl, ?_⟩
    intro j
    by_cases hj : j / 4 = k
    · rw [if_pos hj]
      simp only [matchedByte]
      rw [if_pos (Or.inr (by rw [alphaAt, hj]; exact ha))]
    · rw [if_neg hj]
  · obtain ⟨n, hn⟩ := findNearestColor_isSome (readByte p (4 * k)) (readByte p (4 * k + 1))
      (readByte p (4 * k + 2)) palette hpal
    have hin : 4 * k + 3 < 4 * (p.width * p.height) := inBounds_of_alpha ha
    have hmb := matchedByte_at palette p k ha hn
    by_cases hne : readByte p (4 * k) ≠ n.r ∨ readByte p (4 * k + 1) ≠ n.g ∨
        readByte p (4 * k + 2) ≠ n.b
    · refine ⟨writeRgb p (4 * k) n, true,
        by rw [matchPixelFresh]; simp only [if_neg ha, hn]; rw [if_pos hne], rfl, rfl, ?_⟩
      intro j
      by_cases hj : j / 4 = k
      · rw [if_pos hj]
        rcases (show j = 4 * k ∨ j = 4 * k + 1 ∨ j = 4 * k + 2 ∨ j = 4 * k + 3 by omega)
          with rfl | rfl | rfl | rfl
        · rw [readByte_writeRgb_r p (4 * k) n hin, hmb.1]
        · rw [readByte_writeRgb_g p (4 * k) n hin, hmb.2.1]
        · rw [readByte_writeRgb_b p (4 * k) n hin, hmb.2.2.1]
        · rw [readByte_writeRgb_ne p (4 * k) n _ (by omega) (by omega) (by omega), hmb.2.2.2]
      · rw [if_neg hj]
        exact readByte_writeRgb_ne p (4 * k) n j (by omega) (by omega) (by omega)
    · push_neg at hne
      obtain ⟨hr, hg, hb⟩ := hne
      refine ⟨p, m, ?_, rfl, rfl, ?_⟩
      · rw [matchPixelFresh]
        simp only [if_neg ha, hn]
        rw [if_neg (by push_neg; exact ⟨hr, hg, hb⟩)]
      intro j
      by_cases hj : j / 4 = k
      · rw [if_pos hj]
        rcases (show j = 4 * k ∨ j = 4 * k + 1 ∨ j = 4 * k + 2 ∨ j = 4 * k + 3 by omega)
          with rfl | rfl | rfl | rfl
        · rw [hmb.1, ← hr, readByte_mod]
        · rw [hmb.2.1, ← hg, readByte_mod]
        · rw [hmb.2.2.1, ← hb, readByte_mod]
        · rw [hmb.2.2.2]
      · rw [if_neg hj]

/-- Cache-free fold over distinct pixels: the final buffer reads
`matchedByte` on processed pixels and the original bytes elsewhere. -/
theorem matchFoldFresh_bytes {palette : List Color} (hpal : palette ≠ []) :
    ∀ (ks : List Nat), ks.Nodup → ∀ (p : Png) (m : Bool),
      ∃ p' m', foldSteps (matchPixelFresh palette) (p, m) ks = .ok (p', m') ∧
        p'.width = p.width ∧ p'.height = p.height ∧
        ∀ j, readByte p' j = if j / 4 ∈ ks then matchedByte palette p j else readByte p j := by
  intro ks
  induction ks with
  | nil => intro _ p m; exact ⟨p, m, rfl, rfl, rfl, fun j => by simp⟩
  | cons k ks ih =>
    intro hnd p m
    obtain ⟨p₁, m₁, hstep, hw₁, hh₁, hchar₁⟩ := matchPixelFresh_bytes hpal p m k
    obtain ⟨p', m', hfold, hw, hh, hchar⟩ := ih (List.Nodup.of_cons hnd) p₁ m₁
    have hcongr : ∀ j, j / 4 ≠ k → matchedByte palette p₁ j = matchedByte palette p j := by
      intro j hjk
      refine matchedByte_congr fun c hc => ?_
      rw [hchar₁ (4 * (j / 4) + c), if_neg (by omega)]
    refine ⟨p', m', by rw [foldSteps, hstep]; exact hfold,
      by rw [hw, hw₁], by rw [hh, hh₁], ?_⟩
    intro j
    by_cases hjk : j / 4 = k
    · have hnotin : j / 4 ∉ ks := by
        rw [hjk]; exact (List.nodup_cons.1 hnd).1
      rw [hchar j, if_neg hnotin, hchar₁ j, if_pos hjk, if_pos (by simp [hjk])]
    · by_cases hjin : j / 4 ∈ ks
      · rw [hchar j, if_pos hjin, if_pos (by simp [hjin]), hcongr j hjk]
      · rw [hchar j, if_neg hjin, hchar₁ j, if_neg hjk,
          if_neg (by simp [hjk, hjin])]

/-- `matchPngFresh` succeeds on a non-empty palette and its output reads
`matchedByte` everywhere. -/
theorem matchPngFresh_bytes {palette : List Color} (hpal : palette ≠ []) (p : Png) :
    ∃ p' m', matchPngFresh p palette = .ok (p', m') ∧
      p'.width = p.width ∧ p'.height = p.height ∧
      ∀ j, readByte p' j = matchedByte palette p j := by
  obtain ⟨p', m', hrun, hw, hh, hchar⟩ :=
    matchFoldFresh_bytes hpal (List.range (p.width * p.height)) (List.nodup_range _) p false
  refine ⟨p', m', hrun, hw, hh, ?_⟩
  intro j
  rw [hchar j]
  by_cases hj : j / 4 ∈ List.range (p.width * p.height)
  · rw [if_pos hj]
  · rw [if_neg hj]
    rw [List.mem_range, not_lt] at hj
    simp only [matchedByte]
    rw [if_pos (Or.inr (by rw [alphaAt, readByte, if_neg (by omega)]))]

/-- If every opaque pixel of a buffer already carries the bytes of its own
nearest palette entry, the matching pass writes nothing: the buffer and the
`modified` flag come back untouched. -/
theorem matchFold_noop {palette : List Color} {q : Png}
    (hfix : ∀ k, readByte q (4 * k + 3) ≠ 0 →
      ∃ n, findNearestColor (readByte q (4 * k)) (readByte q (4 * k + 1))
          (readByte q (4 * k + 2)) palette = some n ∧
        n.r = readByte q (4 * k) ∧ n.g = readByte q (4 * k + 1) ∧
        n.b = readByte q (4 * k + 2)) :
    ∀ (ks : List Nat) (cache : ColorCache) (m : Bool), CacheCoherent palette cache →
      ∃ cache', foldSteps (matchPixel palette) (q, cache, m) ks = .ok (q, cache', m) ∧
        CacheCoherent palette cache' := by
  intro ks
  induction ks with
  | nil => intro cache m hc; exact ⟨cache, rfl, hc⟩
  | cons k ks ih =>
    intro cache m hc
    by_cases ha : readByte q (4 * k + 3) = 0
    · obtain ⟨cache', hrun, hc'⟩ := ih cache m hc
      refine ⟨cache', ?_, hc'⟩
      rw [foldSteps, matchPixel]
      simp only [if_pos ha]
      exact hrun
    · obtain ⟨n, hn, hr, hg, hb⟩ := hfix k ha
      have hne : ¬(readByte q (4 * k) ≠ n.r ∨ readByte q (4 * k + 1) ≠ n.g ∨
          readByte q (4 * k + 2) ≠ n.b) := by
        push_neg
        exact ⟨hr.symm, hg.symm, hb.symm⟩
      rcases hl : cache.lookup (readByte q (4 * k) * 65536 + readByte q (4 * k + 1) * 256 +
          readByte q (4 * k + 2)) with _ | v
      · obtain ⟨cache', hrun, hc'⟩ := ih
          ((readByte q (4 * k) * 65536 + readByte q (4 * k + 1) * 256 +
            readByte q (4 * k + 2), n) :: cache) m
          (hc.cons (readByte_lt _ _) (readByte_lt _ _) (readByte_lt _ _) hn)
        refine ⟨cache', ?_, hc'⟩
        rw [foldSteps, matchPixel]
        simp only [if_neg ha, hl, hn]
        rw [if_neg hne]
        exact hrun
      · have hv : findNearestColor (readByte q (4 * k)) (readByte q (4 * k + 1))
            (readByte q (4 * k + 2)) palette = some v :=
          lookup_coherent hc (readByte_lt _ _) (readByte_lt _ _) (readByte_lt _ _) hl
        have hveq : v = n := by
          rw [hv] at hn
          exact Option.some.inj hn
        obtain ⟨cache', hrun, hc'⟩ := ih cache m hc
        refine ⟨cache', ?_, hc'⟩
        rw [foldSteps, matchPixel]
        simp only [if_neg ha, hl]
        rw [hveq, if_neg hne]
        exact hrun

/-- **C9.** Palette matching is idempotent: a second `matchPngToPalette` run
over an already-matched buffer (same non-empty byte palette, fresh empty
cache both times, as `processPiskelFile` does per file) returns the buffer
unchanged — and with `modified = false`, so the tool would keep the original
base64 string. -/
theorem C9_match_idempotent (p : Png) (palette : List Color)
    (hpal : palette ≠ []) (hbytes : PaletteBytes palette) :
    ∃ p₁ cache₁ m₁, matchPngToPalette p palette [] = .ok (p₁, cache₁, m₁) ∧
      ∃ cache₂, matchPngToPalette p₁ palette [] = .ok (p₁, cache₂, false) := by
  have hcnil : CacheCoherent palette [] := fun kc h => by simp at h
  obtain ⟨p₁, cache₁, m₁, hrun1, hrun1F, hc₁⟩ := matchPngToPalette_fresh_eq hpal p hcnil
  obtain ⟨p₁', m₁', hrunF, hw, hh, hchar⟩ := matchPngFresh_bytes hpal p
  rw [hrun1F] at hrunF
  injection hrunF with hpair
  obtain rfl : p₁ = p₁' := congrArg Prod.fst hpair
  obtain rfl : m₁ = m₁' := congrArg Prod.snd hpair
  have hfix : ∀ k, readByte p₁ (4 * k + 3) ≠ 0 →
      ∃ n, findNearestColor (readByte p₁ (4 * k)) (readByte p₁ (4 * k + 1))
          (readByte p₁ (4 * k + 2)) palette = some n ∧
        n.r = readByte p₁ (4 * k) ∧ n.g = readByte p₁ (4 * k + 1) ∧
        n.b = readByte p₁ (4 * k + 2) := by
    intro k ha₁
    have halpha : readByte p₁ (4 * k + 3) = readByte p (4 * k + 3) := by
      rw [hchar (4 * k + 3)]
      simp only [matchedByte]
      rw [if_pos (Or.inl (by omega))]
    have ha : alphaAt p k ≠ 0 := by rw [alphaAt, ← halpha]; exact ha₁
    obtain ⟨n₀, hn₀, hfm⟩ := findNearestColor_firstMin (readByte p (4 * k))
      (readByte p (4 * k + 1)) (readByte p (4 * k + 2)) palette hpal
    obtain ⟨hn₀r, hn₀g, hn₀b⟩ := hbytes n₀ hfm.mem
    have hmb := matchedByte_at palette p k ha hn₀
    have hb₁r : readByte p₁ (4 * k) = n₀.r := by
      rw [hchar (4 * k), hmb.1, Nat.mod_eq_of_lt hn₀r]
    have hb₁g : readByte p₁ (4 * k + 1) = n₀.g := by
      rw [hchar (4 * k + 1), hmb.2.1, Nat.mod_eq_of_lt hn₀g]
    have hb₁b : readByte p₁ (4 * k + 2) = n₀.b := by
      rw [hchar (4 * k + 2), hmb.2.2.1, Nat.mod_eq_of_lt hn₀b]
    obtain ⟨res, hres, hresr, hresg, hresb⟩ := findNearestColor_of_mem hfm.mem hbytes
    refine ⟨res, ?_, ?_, ?_, ?_⟩
    · rw [hb₁r, hb₁g, hb₁b]; exact hres
    · rw [hb₁r]; exact hresr
    · rw [hb₁g]; exact hresg
    · rw [hb₁b]; exact hresb
  obtain ⟨cache₂, hrun2, -⟩ := matchFold_noop hfix
    (List.range (p₁.width * p₁.height)) [] false hcnil
  exact ⟨p₁, cache₁, m₁, hrun1, cache₂, hrun2⟩

/-- Witness for C9 on the concrete two-pixel buffer and scenario palette. -/
theorem C9_witness :
    (testPalette ≠ [] ∧ PaletteBytes testPalette) ∧
    (∃ p₁ cache₁ m₁, matchPngToPalette testPng testPalette [] = .ok (p₁, cache₁, m₁) ∧
      ∃ cache₂, matchPngToPalette p₁ testPalette [] = .ok (p₁, cache₂, false)) :=
  ⟨⟨by decide, by decide⟩, C9_match_idempotent testPng testPalette (by decide) (by decide)⟩

/-- **C2.** For every pixel colour and every non-empty palette,
`findNearestColor` returns the first palette entry (in load order) achieving
the minimum redmean distance, and an entry at distance 0 ends the scan
immediately: whatever follows it cannot influence the result. -/
theorem C2_nearest_color_first_min (r g b : Nat) (palette : List Color)
    (hpal : palette ≠ []) :
    (∃ res, findNearestColor r g b palette = some res ∧ FirstMin r g b palette res) ∧
    (∀ p₁ c p₂, palette = p₁ ++ c :: p₂ → (∀ e ∈ p₁, distTo r g b e ≠ 0) →
      distTo r g b c = 0 →
      findNearestColor r g b palette = findNearestColor r g b (p₁ ++ [c])) := by
  refine ⟨findNearestColor_firstMin r g b palette hpal, ?_⟩
  intro p₁ c p₂ hsplit hall hc
  rw [hsplit]
  exact findNearestColor_shortCircuit r g b p₁ p₂ c hall hc

/-- Witness for C2 at the specification's own scenario: pixel (200,10,10)
against [red, green] selects red, the first (and only) minimiser. -/
theorem C2_witness :
    (testPalette ≠ [] ∧
      ((∃ res, findNearestColor 200 10 10 testPalette = some res ∧
          FirstMin 200 10 10 testPalette res) ∧
       (∀ p₁ c p₂, testPalette = p₁ ++ c :: p₂ → (∀ e ∈ p₁, distTo 200 10 10 e ≠ 0) →
         distTo 200 10 10 c = 0 →
         findNearestColor 200 10 10 testPalette = findNearestColor 200 10 10 (p₁ ++ [c])))) ∧
    findNearestColor 200 10 10 testPalette = some ⟨255, 0, 0⟩ :=
  ⟨⟨by decide, C2_nearest_color_first_min 200 10 10 testPalette (by decide)⟩, by decide⟩

/-- **C3.** The per-file colour cache is a pure optimisation: for every
document and non-empty palette, the real run of `processPiskelFile` — one
cache created empty and shared across all chunks and layers — produces
literally the same matched buffers as the cache-free run that calls
`findNearestColor` afresh for every nonzero-alpha pixel. -/
theorem C3_cache_pure_optimization (doc : PiskelDoc) (palette : List Color)
    (hpal : palette ≠ []) :
    ∃ layers' cache',
      processPiskelFile doc palette = some { doc with layers := layers' } ∧
      matchLayers palette [] doc.layers = some (layers', cache') ∧
      matchLayersFresh palette doc.layers = some layers' := by
  obtain ⟨ls', cache', h1, h2, h3⟩ :=
    matchLayers_fresh_eq hpal doc.layers [] (fun kc h => by simp at h)
  exact ⟨ls', cache', by simp [processPiskelFile, h1], h1, h2⟩

/-- Witness for C3 on a concrete two-pixel document. -/
theorem C3_witness :
    testPalette ≠ [] ∧
    (∃ layers' cache',
      processPiskelFile testDoc testPalette = some { testDoc with layers := layers' } ∧
      matchLayers testPalette [] testDoc.layers = some (layers', cache') ∧
      matchLayersFresh testPalette testDoc.layers = some layers') :=
  ⟨by decide, C3_cache_pure_optimization testDoc testPalette (by decide)⟩

/-- With an empty palette the CLI matcher's pixel loop throws at the first
nonzero-alpha pixel — with the buffer still byte-for-byte the input — and
completes untouched when every pixel is transparent. -/
theorem matchFold_empty_palette :
    ∀ (ks : List Nat) (p : Png) (m : Bool),
      foldSteps (matchPixel []) (p, [], m) ks =
        if ∃ k ∈ ks, readByte p (4 * k + 3) ≠ 0 then .thrown (p, [], m)
        else .ok (p, [], m) := by
  intro ks
  induction ks with
  | nil => intro p m; simp [foldSteps]
  | cons k ks ih =>
    intro p m
    by_cases ha : readByte p (4 * k + 3) = 0
    · rw [foldSteps, matchPixel]
      simp only [if_pos ha]
      rw [ih p m]
      by_cases hex : ∃ k' ∈ ks, readByte p (4 * k' + 3) ≠ 0
      · obtain ⟨k', hk', h'⟩ := hex
        rw [if_pos ⟨k', hk', h'⟩, if_pos ⟨k', List.mem_cons_of_mem _ hk', h'⟩]
      · rw [if_neg hex, if_neg ?_]
        rintro ⟨k', hk', h'⟩
        rcases List.mem_cons.1 hk' with rfl | hk'
        · exact h' ha
        · exact hex ⟨k', hk', h'⟩
    · rw [foldSteps, matchPixel]
      simp only [if_neg ha, List.lookup, findNearestColor, findNearestAux, List.head?]
      rw [if_pos ⟨k, List.mem_cons_self _ _, ha⟩]

/-- Same for the importer's `applyPaletteToImageData` loop. -/
theorem applyFold_empty_palette :
    ∀ (ks : List Nat) (p : Png),
      foldSteps (applyPixel []) (p, []) ks =
        if ∃ k ∈ ks, readByte p (4 * k + 3) ≠ 0 then .thrown (p, [])
        else .ok (p, []) := by
  intro ks
  induction ks with
  | nil => intro p; simp [foldSteps]
  | cons k ks ih =>
    intro p
    by_cases ha : readByte p (4 * k + 3) = 0
    · rw [foldSteps, applyPixel]
      simp only [if_pos ha]
      rw [ih p]
      by_cases hex : ∃ k' ∈ ks, readByte p (4 * k' + 3) ≠ 0
      · obtain ⟨k', hk', h'⟩ := hex
        rw [if_pos ⟨k', hk', h'⟩, if_pos ⟨k', List.mem_cons_of_mem _ hk', h'⟩]
      · rw [if_neg hex, if_neg ?_]
        rintro ⟨k', hk', h'⟩
        rcases List.mem_cons.1 hk' with rfl | hk'
        · exact h' ha
        · exact hex ⟨k', hk', h'⟩
    · rw [foldSteps, applyPixel]
      simp only [if_neg ha, List.lookup, findNearestColor, findNearestAux, List.head?]
      rw [if_pos ⟨k, List.mem_cons_self _ _, ha⟩]

/-- **C4 (amended).** Matching against an empty palette never mutates any
pixel buffer, but it does not fail with a dedicated `EmptyPaletteError`:
the editor service returns silently (success, buffers unchanged), while the
two CLI matchers throw an untyped `TypeError` — and only when the buffer
contains a nonzero-alpha pixel; a fully transparent buffer sails through. -/
theorem C4_empty_palette_no_mutation :
    (∀ frames : List (List Nat), matchToPalette [] frames = some frames) ∧
    (∀ p : Png, matchPngToPalette p [] [] =
      if hasOpaquePixel p then .thrown (p, [], false) else .ok (p, [], false)) ∧
    (∀ p : Png, applyPaletteToImageData p [] =
      if hasOpaquePixel p then .thrown (p, []) else .ok (p, [])) := by
  refine ⟨fun frames => rfl, fun p => ?_, fun p => ?_⟩
  · rw [matchPngToPalette, matchFold_empty_palette]
    by_cases h : hasOpaquePixel p
    · rw [if_pos ?_, if_pos h]
      rw [hasOpaquePixel, List.any_eq_true] at h
      obtain ⟨k, hk, hh⟩ := h
      exact ⟨k, hk, by simpa [alphaAt] using hh⟩
    · rw [if_neg ?_, if_neg h]
      rw [hasOpaquePixel] at h
      intro hex
      apply h
      rw [List.any_eq_true]
      obtain ⟨k, hk, hh⟩ := hex
      exact ⟨k, hk, by simpa [alphaAt] using hh⟩
  · rw [applyPaletteToImageData, applyFold_empty_palette]
    by_cases h : hasOpaquePixel p
    · rw [if_pos ?_, if_pos h]
      rw [hasOpaquePixel, List.any_eq_true] at h
      obtain ⟨k, hk, hh⟩ := h
      exact ⟨k, hk, by simpa [alphaAt] using hh⟩
    · rw [if_neg ?_, if_neg h]
      rw [hasOpaquePixel] at h
      intro hex
      apply h
      rw [List.any_eq_true]
      obtain ⟨k, hk, hh⟩ := hex
      exact ⟨k, hk, by simpa [alphaAt] using hh⟩

theorem findNearestColor_mem {r g b : Nat} {pd : List Color} {n : Color}
    (h : findNearestColor r g b pd = some n) : n ∈ pd := by
  cases pd with
  | nil => simp [findNearestColor, findNearestAux, List.head?] at h
  | cons c rest =>
    obtain ⟨res, hres, hfm⟩ := findNearestColor_firstMin r g b (c :: rest) (by simp)
    rw [hres] at h
    rw [← Option.some.inj h]
    exact hfm.mem

theorem getD_set_ne (l : List Nat) (i j v : Nat) (h : j ≠ i) :
    (l.set i v).getD j 0 = l.getD j 0 := by
  rw [List.getD_eq_getElem?_getD, List.getD_eq_getElem?_getD,
    List.getElem?_set_ne (Ne.symm h)]

theorem getD_set_self (l : List Nat) (i v : Nat) (h : i < l.length) :
    (l.set i v).getD i 0 = v := by
  rw [List.getD_eq_getElem?_getD, List.getElem?_set_eq_of_lt _ h]
  rfl

theorem intCache_lookup_mem :
    ∀ (cache : IntCache) (k v : Nat), cache.lookup k = some v → (k, v) ∈ cache := by
  intro cache
  induction cache with
  | nil => intro k v h; simp [List.lookup] at h
  | cons kv rest ih =>
    intro k v h
    obtain ⟨k1, v1⟩ := kv
    rw [List.lookup] at h
    cases hbeq : (k == k1) with
    | true =>
      rw [hbeq] at h
      have hv : v1 = v := Option.some.inj h
      have hk : k = k1 := beq_iff_eq.1 hbeq
      exact List.mem_cons.2 (Or.inl (by rw [hk, hv]))
    | false =>
      rw [hbeq] at h
      exact List.mem_cons.2 (Or.inr (ih k v h))

/-- One pixel step of the editor service: success (on a non-empty byte
palette), alpha byte of the pixel preserved, other pixels untouched,
fully-transparent pixels skipped, cache alpha-coherence maintained. -/
theorem matchFramePixel_alpha {pd : List Color} (hpd : pd ≠ []) (hbytes : PaletteBytes pd)
    (pixels : List Nat) (cache : IntCache) (hcache : AlphaCoherent cache)
    (i : Nat) (hi : i < pixels.length) :
    ∃ pixels' cache', matchFramePixel pd (pixels, cache) i = .ok (pixels', cache') ∧
      AlphaCoherent cache' ∧ pixels'.length = pixels.length ∧
      (∀ j, j ≠ i → pixels'.getD j 0 = pixels.getD j 0) ∧
      intAlpha (pixels'.getD i 0) = intAlpha (pixels.getD i 0) ∧
      (intAlpha (pixels.getD i 0) = 0 → pixels' = pixels) := by
  by_cases ha : pixels.getD i 0 % 2 ^ 32 / 2 ^ 24 = 0
  · refine ⟨pixels, cache, ?_, hcache, rfl, fun _ _ => rfl, rfl, fun _ => rfl⟩
    rw [matchFramePixel]
    simp only [if_pos ha]
  · have hna : intAlpha (pixels.getD i 0) ≠ 0 := ha
    rcases hl : cache.lookup (pixels.getD i 0) with _ | v
    · obtain ⟨n, hn⟩ := findNearestColor_isSome (pixels.getD i 0 % 2 ^ 32 % 256)
        (pixels.getD i 0 % 2 ^ 32 / 256 % 256) (pixels.getD i 0 % 2 ^ 32 / 65536 % 256) pd hpd
      obtain ⟨hnr, hng, hnb⟩ := hbytes n (findNearestColor_mem hn)
      have hv : pixels.getD i 0 % 2 ^ 32 < 2 ^ 32 := Nat.mod_lt _ (by norm_num)
      have hnewAlpha :
          intAlpha (pixels.getD i 0 % 2 ^ 32 / 2 ^ 24 * 2 ^ 24 +
              n.b * 65536 + n.g * 256 + n.r) =
            intAlpha (pixels.getD i 0) := by
        rw [intAlpha, intAlpha]
        omega
      refine ⟨pixels.set i (pixels.getD i 0 % 2 ^ 32 / 2 ^ 24 * 2 ^ 24 +
          n.b * 65536 + n.g * 256 + n.r),
        (pixels.getD i 0, pixels.getD i 0 % 2 ^ 32 / 2 ^ 24 * 2 ^ 24 +
          n.b * 65536 + n.g * 256 + n.r) :: cache, ?_, ?_, ?_, ?_, ?_, ?_⟩
      · rw [matchFramePixel]
        simp only [if_neg ha, hl, hn]
      · intro kv hkv
        rcases List.mem_cons.1 hkv with rfl | hkv
        · exact hnewAlpha
        · exact hcache kv hkv
      · exact List.length_set _ _ _
      · intro j hj
        exact getD_set_ne _ _ _ _ hj
      · rw [getD_set_self _ _ _ hi]
        exact hnewAlpha
      · intro h0
        exact absurd h0 hna
    · have hva : intAlpha v = intAlpha (pixels.getD i 0) :=
        hcache _ (intCache_lookup_mem cache _ v hl)
      refine ⟨pixels.set i v, cache, ?_, hcache, List.length_set _ _ _,
        fun j hj => getD_set_ne _ _ _ _ hj, ?_, fun h0 => absurd h0 hna⟩
      · rw [matchFramePixel]
        simp only [if_neg ha, hl]
      · rw [getD_set_self _ _ _ hi]
        exact hva

/-- Fold version over one frame's pixels. -/
theorem matchFrameFold_alpha {pd : List Color} (hpd : pd ≠ []) (hbytes : PaletteBytes pd) :
    ∀ (ks : List Nat) (pixels : List Nat) (cache : IntCache), AlphaCoherent cache →
      (∀ i ∈ ks, i < pixels.length) →
      ∃ pixels' cache',
        foldSteps (matchFramePixel pd) (pixels, cache) ks = .ok (pixels', cache') ∧
        AlphaCoherent cache' ∧ pixels'.length = pixels.length ∧
        (∀ j, intAlpha (pixels'.getD j 0) = intAlpha (pixels.getD j 0)) ∧
        (∀ j, intAlpha (pixels.getD j 0) = 0 → pixels'.getD j 0 = pixels.getD j 0) := by
  intro ks
  induction ks with
  | nil =>
    intro pixels cache hcache _
    exact ⟨pixels, cache, rfl, hcache, rfl, fun _ => rfl, fun _ _ => rfl⟩
  | cons k ks ih =>
    intro pixels cache hcache hlt
    obtain ⟨p₁, c₁, hstep, hc₁, hlen₁, huntouched₁, halpha₁, hskip₁⟩ :=
      matchFramePixel_alpha hpd hbytes pixels cache hcache k (hlt k (by simp))
    obtain ⟨p', c', hfold, hc', hlen', halpha', hskip'⟩ :=
      ih p₁ c₁ hc₁ (fun i hik => by rw [hlen₁]; exact hlt i (List.mem_cons_of_mem _ hik))
    have halphaStep : ∀ j, intAlpha (p₁.getD j 0) = intAlpha (pixels.getD j 0) := by
      intro j
      by_cases hjk : j = k
      · rw [hjk]; exact halpha₁
      · rw [huntouched₁ j hjk]
    refine ⟨p', c', by rw [foldSteps, hstep]; exact hfold, hc',
      by rw [hlen', hlen₁], ?_, ?_⟩
    · intro j
      rw [halpha' j, halphaStep j]
    · intro j h0
      have h0₁ : intAlpha (p₁.getD j 0) = 0 := by rw [halphaStep j]; exact h0
      rw [hskip' j h0₁]
      by_cases hjk : j = k
      · rw [hjk] at h0 ⊢
        rw [hskip₁ h0]
      · exact huntouched₁ j hjk

/-- Frame loop of the service: shared cache, every frame's alpha bytes and
transparent pixels preserved. -/
theorem matchFrames_alpha {pd : List Color} (hpd : pd ≠ []) (hbytes : PaletteBytes pd) :
    ∀ (frames : List (List Nat)) (cache : IntCache), AlphaCoherent cache →
      ∃ out cache', matchFrames pd cache frames = some (out, cache') ∧
        AlphaCoherent cache' ∧
        List.Forall₂ (fun f f' : List Nat =>
          f'.length = f.length ∧
          (∀ j, intAlpha (f'.getD j 0) = intAlpha (f.getD j 0)) ∧
          (∀ j, intAlpha (f.getD j 0) = 0 → f'.getD j 0 = f.getD j 0)) frames out := by
  intro frames
  induction frames with
  | nil => intro cache hcache; exact ⟨[], cache, rfl, hcache, List.Forall₂.nil⟩
  | cons f fs ih =>
    intro cache hcache
    obtain ⟨f', c₁, hfold, hc₁, hlen, halpha, hskip⟩ :=
      matchFrameFold_alpha hpd hbytes (List.range f.length) f cache hcache
        (fun i hi => List.mem_range.1 hi)
    obtain ⟨out, c', hrun, hc', hfa⟩ := ih c₁ hc₁
    refine ⟨f' :: out, c', ?_, hc', List.Forall₂.cons ⟨hlen, halpha, hskip⟩ hfa⟩
    rw [matchFrames, matchFrameToPalette, hfold]
    show Option.map (fun x => (f' :: x.1, x.2)) (matchFrames pd c₁ fs) = some (f' :: out, c')
    rw [hrun]
    rfl

/-- **C6.** The colour matcher never touches an alpha byte and leaves every
fully-transparent pixel byte-for-byte unchanged, for any buffer, palette and
cache: (a) the CLI's `matchPngToPalette`, through successful and thrown runs
alike; (b) the editor service's `matchToPalette` (on the byte palettes
`buildPaletteData_` produces), where alpha sits in the top byte of each
32-bit pixel. -/
theorem C6_alpha_never_touched :
    (∀ (p : Png) (palette : List Color) (cache : ColorCache)
       (st' : Png × ColorCache × Bool),
      (matchPngToPalette p palette cache = .ok st' ∨
       matchPngToPalette p palette cache = .thrown st') →
      (∀ j, j % 4 = 3 → readByte st'.1 j = readByte p j) ∧
      (∀ k, alphaAt p k = 0 → ∀ c, c < 4 →
        readByte st'.1 (4 * k + c) = readByte p (4 * k + c))) ∧
    (∀ (pd : List Color) (frames : List (List Nat)), PaletteBytes pd →
      ∃ out, matchToPalette pd frames = some out ∧
        List.Forall₂ (fun f f' : List Nat =>
          f'.length = f.length ∧
          (∀ j, intAlpha (f'.getD j 0) = intAlpha (f.getD j 0)) ∧
          (∀ j, intAlpha (f.getD j 0) = 0 → f'.getD j 0 = f.getD j 0)) frames out) := by
  constructor
  · intro p palette cache st' h
    obtain ⟨-, -, halpha, htrans⟩ :=
      matchFold_alpha palette (List.range (p.width * p.height)) p cache false st' h
    exact ⟨halpha, htrans⟩
  · intro pd frames hbytes
    by_cases hpd : pd = []
    · refine ⟨frames, by rw [hpd, matchToPalette, if_pos rfl], ?_⟩
      rw [List.forall₂_same]
      intro f _
      exact ⟨rfl, fun _ => rfl, fun _ _ => rfl⟩
    · obtain ⟨out, cache', hrun, -, hfa⟩ :=
        matchFrames_alpha hpd hbytes frames [] (fun kv h => by simp at h)
      refine ⟨out, ?_, hfa⟩
      rw [matchToPalette, if_neg hpd, hrun]
      rfl

/-- Witness for C6: the CLI part at the thrown empty-palette run over the
concrete buffer, the service part at an opaque black pixel and the scenario
palette. -/
theorem C6_witness :
    (matchPngToPalette testPng [] [] = .thrown (testPng, [], false) ∧
      PaletteBytes testPalette) ∧
    ((∀ j, j % 4 = 3 → readByte testPng j = readByte testPng j) ∧
     (∀ k, alphaAt testPng k = 0 → ∀ c, c < 4 →
       readByte testPng (4 * k + c) = readByte testPng (4 * k + c))) ∧
    (∃ out, matchToPalette testPalette [[4278190080]] = some out ∧
      List.Forall₂ (fun f f' : List Nat =>
        f'.length = f.length ∧
        (∀ j, intAlpha (f'.getD j 0) = intAlpha (f.getD j 0)) ∧
        (∀ j, intAlpha (f.getD j 0) = 0 → f'.getD j 0 = f.getD j 0))
        [[4278190080]] out) :=
  ⟨⟨rfl, by decide⟩,
    C6_alpha_never_touched.1 testPng [] [] (testPng, [], false) (Or.inr rfl),
    C6_alpha_never_touched.2 testPalette [[4278190080]] (by decide)⟩

theorem imageStep_none {p : Png} {xy : Nat × Nat} (acc : List Color)
    (h : pixelColor? p xy = none) : imageStep p acc xy = acc := by
  rw [pixelColor?] at h
  rw [imageStep]
  by_cases hcond : readByte p (4 * (p.width * xy.2 + xy.1) + 3) > 0
  · rw [if_pos hcond] at h
    cases h
  · rw [if_neg hcond]

theorem imageStep_some {p : Png} {xy : Nat × Nat} {c : Color} (acc : List Color)
    (h : pixelColor? p xy = some c) :
    imageStep p acc xy = if c ∈ acc then acc else acc ++ [c] := by
  rw [pixelColor?] at h
  rw [imageStep]
  by_cases hcond : readByte p (4 * (p.width * xy.2 + xy.1) + 3) > 0
  · rw [if_pos hcond] at h
    rw [if_pos hcond, ← Option.some.inj h]
  · rw [if_neg hcond] at h
    cases h

theorem keepFirst_congr : ∀ (cs s₁ s₂ : List Color),
    (∀ c, c ∈ s₁ ↔ c ∈ s₂) → keepFirst s₁ cs = keepFirst s₂ cs := by
  intro cs
  induction cs with
  | nil => intro _ _ _; rfl
  | cons c cs ih =>
    intro s₁ s₂ hmem
    rw [keepFirst, keepFirst]
    by_cases hc : c ∈ s₁
    · rw [if_pos hc, if_pos ((hmem c).1 hc)]
      exact ih s₁ s₂ hmem
    · rw [if_neg hc, if_neg (fun h => hc ((hmem c).2 h))]
      refine congrArg _ (ih _ _ fun x => ?_)
      simp only [List.mem_cons]
      rw [hmem x]

theorem foldl_imageStep (p : Png) : ∀ (pts : List (Nat × Nat)) (acc : List Color),
    pts.foldl (imageStep p) acc = acc ++ keepFirst acc (pts.filterMap (pixelColor? p)) := by
  intro pts
  induction pts with
  | nil => intro acc; simp [keepFirst]
  | cons xy pts ih =>
    intro acc
    rcases h : pixelColor? p xy with _ | c
    · rw [List.foldl_cons, List.filterMap_cons, h, imageStep_none acc h]
      exact ih acc
    · rw [List.foldl_cons, List.filterMap_cons, h, imageStep_some acc h]
      by_cases hc : c ∈ acc
      · rw [if_pos hc, keepFirst, if_pos hc]
        exact ih acc
      · rw [if_neg hc, keepFirst, if_neg hc, ih (acc ++ [c]),
          keepFirst_congr _ (acc ++ [c]) (c :: acc) (by intro x; simp [or_comm])]
        simp

theorem keepFirst_nodup : ∀ (cs seen : List Color),
    (keepFirst seen cs).Nodup ∧ ∀ c ∈ keepFirst seen cs, c ∉ seen := by
  intro cs
  induction cs with
  | nil => intro seen; exact ⟨List.nodup_nil, by simp [keepFirst]⟩
  | cons c cs ih =>
    intro seen
    rw [keepFirst]
    by_cases hc : c ∈ seen
    · rw [if_pos hc]
      exact ih seen
    · rw [if_neg hc]
      obtain ⟨hnd, hout⟩ := ih (c :: seen)
      refine ⟨List.nodup_cons.2 ⟨fun hmem => ?_, hnd⟩, ?_⟩
      · exact hout c hmem (by simp)
      · intro x hx
        rcases List.mem_cons.1 hx with rfl | hx
        · exact hc
        · intro hxs
          exact hout x hx (List.mem_cons_of_mem _ hxs)

theorem keepFirst_sublist : ∀ (cs seen : List Color), List.Sublist (keepFirst seen cs) cs := by
  intro cs
  induction cs with
  | nil => intro _; exact List.Sublist.refl _
  | cons c cs ih =>
    intro seen
    rw [keepFirst]
    by_cases hc : c ∈ seen
    · rw [if_pos hc]
      exact (ih seen).cons c
    · rw [if_neg hc]
      exact (ih (c :: seen)).cons₂ c

/-- **C7 (amended).** The image-swatch loader produces an ordered,
de-duplicated colour list: exactly the first-seen de-duplication of the
alpha-positive pixels in scan order (hence `Nodup`, and a sublist of the scan
preserving relative order).  The Gpl and Txt text parsers, in contrast, do
not de-duplicate at all: they are line-local (a homomorphism over line
concatenation), so a repeated colour appears repeatedly. -/
theorem C7_palette_dedup_amended :
    (∀ p : Png, parseImagePalette p = keepFirst [] (opaqueColors p) ∧
      (parseImagePalette p).Nodup ∧ List.Sublist (parseImagePalette p) (opaqueColors p)) ∧
    (∀ l₁ l₂ : List (List Char),
      parseGplLines (l₁ ++ l₂) = parseGplLines l₁ ++ parseGplLines l₂) ∧
    (∀ l₁ l₂ : List (List Char),
      parseTxtLines (l₁ ++ l₂) = parseTxtLines l₁ ++ parseTxtLines l₂) := by
  refine ⟨fun p => ?_, fun l₁ l₂ => List.filterMap_append l₁ l₂ parseGplLine,
    fun l₁ l₂ => List.filterMap_append l₁ l₂ parseTxtLine⟩
  have heq : parseImagePalette p = keepFirst [] (opaqueColors p) := by
    rw [parseImagePalette, opaqueColors, foldl_imageStep]
    rfl
  refine ⟨heq, ?_, ?_⟩
  · rw [heq]
    exact (keepFirst_nodup _ _).1
  · rw [heq, opaqueColors]
    exact keepFirst_sublist _ _

/-- Counterexample to C7 as stated: a GPL palette with the same colour on two
lines loads with the duplicate kept — `parseGplPalette` does not de-duplicate. -/
theorem C7_counterexample :
    parseGplPalette "0 0 0\n0 0 0" = [⟨0, 0, 0⟩, ⟨0, 0, 0⟩] ∧
    ¬ (parseGplPalette "0 0 0\n0 0 0").Nodup := by
  constructor
  · decide
  · decide

/-- Counterexample to C4 as stated: matching against an empty palette does
not fail.  The editor service returns successfully with the frame unchanged
(even for an opaque pixel), and the CLI matcher succeeds on a transparent
buffer. -/
theorem C4_counterexample :
    matchToPalette [] [[4278190080]] = some [[4278190080]] ∧
    matchPngToPalette clearPng [] [] = .ok (clearPng, [], false) ∧
    applyPaletteToImageData clearPng [] = .ok (clearPng, []) :=
  ⟨rfl, rfl, rfl⟩

theorem mul_add_div_of_lt {w x y : Nat} (hx : x < w) : (w * y + x) / w = y := by
  rw [Nat.mul_add_div (by omega), Nat.div_eq_of_lt hx, Nat.add_zero]

theorem mul_add_mod_of_lt {w x y : Nat} (hx : x < w) : (w * y + x) % w = x := by
  rw [Nat.mul_add_mod, Nat.mod_eq_of_lt hx]

/-- **C8 (amended).** `resizePng` performs no validation of its target
dimensions — there is no `ConstraintViolation` anywhere in the tools.  It
always returns a buffer of exactly `newW × newH` (an empty buffer for a
target of 0, still no failure), and each in-range destination pixel `(x, y)`
copies source pixel `(⌊x·srcW/newW⌋, ⌊y·srcH/newH⌋)`. -/
theorem C8_resize_no_validation (p : Png) (newW newH : Nat) :
    (resizePng p newW newH).width = newW ∧
    (resizePng p newW newH).height = newH ∧
    (∀ x y ch, x < newW → y < newH → ch < 4 →
      readByte (resizePng p newW newH) (4 * (newW * y + x) + ch) =
        readByte p (4 * (p.width * (y * p.height / newH) + x * p.width / newW) + ch)) := by
  refine ⟨rfl, rfl, ?_⟩
  intro x y ch hx hy hch
  have hpix : newW * y + x < newW * newH := by
    calc newW * y + x < newW * y + newW := by omega
      _ = newW * (y + 1) := by ring
      _ ≤ newW * newH := Nat.mul_le_mul_left _ (by omega)
  have hidx : 4 * (newW * y + x) + ch < 4 * (newW * newH) := by omega
  have h4 : (4 * (newW * y + x) + ch) / 4 = newW * y + x := by omega
  have hm4 : (4 * (newW * y + x) + ch) % 4 = ch := by omega
  show (if 4 * (newW * y + x) + ch < 4 * (newW * newH) then
      readByte p (4 * (p.width * ((4 * (newW * y + x) + ch) / 4 / newW * p.height / newH) +
        (4 * (newW * y + x) + ch) / 4 % newW * p.width / newW) +
        (4 * (newW * y + x) + ch) % 4) % 256 else 0) = _
  rw [if_pos hidx, h4, hm4, mul_add_div_of_lt hx, mul_add_mod_of_lt hx, readByte_mod]

/-- Witness for C8 at a 4×2 upscale of the 2×1 test buffer. -/
theorem C8_witness :
    (1 < 4 ∧ 0 < 2 ∧ 3 < 4) ∧
    readByte (resizePng testPng 4 2) (4 * (4 * 0 + 1) + 3) =
      readByte testPng (4 * (testPng.width * (0 * testPng.height / 2) +
        1 * testPng.width / 4) + 3) :=
  ⟨by decide,
    (C8_resize_no_validation testPng 4 2).2.2 1 0 3 (by decide) (by decide) (by decide)⟩

/-- Counterexample to C8 as stated: a resize to target width 0 returns
normally (an empty 0×5 buffer) instead of failing with any
`ConstraintViolation`. -/
theorem C8_counterexample :
    (resizePng testPng 0 5).width = 0 ∧ (resizePng testPng 0 5).height = 5 ∧
    readByte (resizePng testPng 0 5) 0 = 0 :=
  ⟨rfl, rfl, by decide⟩

/-- **C10.** PNG export depends only on the first layer: two documents that
agree on width, height and `layers[0]` produce identical extracted frame
sets and identical exported PNGs, for every frame index, column count and
scale. -/
theorem C10_export_first_layer_only (d₁ d₂ : PiskelDoc)
    (hw : d₁.width = d₂.width) (hh : d₁.height = d₂.height)
    (hl : d₁.layers.head? = d₂.layers.head?) :
    extractFrames d₁ = extractFrames d₂ ∧
    ∀ opts : ExportOptions, exportPiskel d₁ opts = exportPiskel d₂ opts := by
  have hef : extractFrames d₁ = extractFrames d₂ := by
    rw [extractFrames, extractFrames, hw, hh, hl]
  exact ⟨hef, fun opts => by rw [exportPiskel, exportPiskel, hef]⟩

/-- Witness for C10: `testDoc` and `testDocB` differ in a second layer yet
export identically. -/
theorem C10_witness :
    (testDoc.width = testDocB.width ∧ testDoc.height = testDocB.height ∧
      testDoc.layers.head? = testDocB.layers.head?) ∧
    (extractFrames testDoc = extractFrames testDocB ∧
      ∀ opts : ExportOptions, exportPiskel testDoc opts = exportPiskel testDocB opts) :=
  ⟨⟨rfl, rfl, rfl⟩, C10_export_first_layer_only testDoc testDocB rfl rfl rfl⟩

/-- **C5 (code bug).** The two decode sites with the `|| 1` guard
(`extractFrames` here; the transform's second pass is `framePipeline`) place
layout slot `i` at tile `(i mod max(1, ⌊sheetW/frameW⌋), i div …)` as the
specification's formula states — but the crop-bounds pass omits the guard:
on `narrowDoc` (sheet 1 px wide, frame 2 px wide) its `framesPerRow` is 0,
the JS `i % 0` / `Math.floor(i / 0)` arithmetic collapses the flat index to
byte 3, and the pass reports no content anywhere, while the guarded decode
of the very same chunk yields a tile with content (and content bounds
(0,0)-(1,1)). -/
theorem C5_narrow_sheet_divergence :
    globalCropBounds narrowDoc = none ∧
    (extractFrames narrowDoc).map (List.map fun a => frameContent a.2) =
      some [[(1, 0), (0, 1)]] ∧
    (extractFrames narrowDoc).map (List.map fun a => findContentBounds a.2) =
      some [⟨0, 0, 2, 2⟩] := by
  refine ⟨by decide, by decide, by decide⟩

theorem foldl_ite_filter {α σ : Type} (P : α → Prop) [DecidablePred P] (f : σ → α → σ) :
    ∀ (l : List α) (st : σ),
      l.foldl (fun st a => if P a then f st a else st) st =
        (l.filter fun a => decide (P a)).foldl f st := by
  intro l
  induction l with
  | nil => intro st; rfl
  | cons a l ih =>
    intro st
    rw [List.foldl_cons, List.filter_cons]
    by_cases h : P a
    · rw [if_pos h, if_pos (by simpa using h), List.foldl_cons]
      exact ih (f st a)
    · rw [if_neg h, if_neg (by simpa using h)]
      exact ih st

theorem foldl_flatMap {α β σ : Type} (g : α → List β) (f : σ → β → σ) :
    ∀ (l : List α) (st : σ),
      (l.flatMap g).foldl f st = l.foldl (fun st a => (g a).foldl f st) st := by
  intro l
  induction l with
  | nil => intro st; rfl
  | cons a l ih =>
    intro st
    rw [List.flatMap_cons, List.foldl_append, List.foldl_cons]
    exact ih _

theorem flatMap_map {α β γ : Type} (f : α → β) (g : β → List γ) :
    ∀ l : List α, (l.map f).flatMap g = l.flatMap fun a => g (f a) := by
  intro l
  induction l with
  | nil => rfl
  | cons a l ih => rw [List.map_cons, List.flatMap_cons, List.flatMap_cons, ih]

theorem flatMap_flatMap {α β γ : Type} (g : α → List β) (h : β → List γ) :
    ∀ l : List α, (l.flatMap g).flatMap h = l.flatMap fun a => (g a).flatMap h := by
  intro l
  induction l with
  | nil => rfl
  | cons a l ih =>
    rw [List.flatMap_cons, List.flatMap_append, List.flatMap_cons, ih]

theorem foldl_congr_mem {α σ : Type} {f g : σ → α → σ} :
    ∀ {l : List α}, (∀ a ∈ l, ∀ st, f st a = g st a) →
      ∀ st, l.foldl f st = l.foldl g st := by
  intro l
  induction l with
  | nil => intro _ _; rfl
  | cons a l ih =>
    intro h st
    rw [List.foldl_cons, List.foldl_cons, h a (by simp)]
    exact ih (fun x hx st => h x (by simp [hx]) st) _

theorem foldl_min_pull : ∀ (rest : List Nat) (v y : Nat),
    rest.foldl min (min v y) = min v (rest.foldl min y) := by
  intro rest
  induction rest with
  | nil => intro v y; rfl
  | cons z rest ih =>
    intro v y
    rw [List.foldl_cons, List.foldl_cons, min_assoc, ih]

theorem foldl_max_pull : ∀ (rest : List Nat) (v y : Nat),
    rest.foldl max (max v y) = max v (rest.foldl max y) := by
  intro rest
  induction rest with
  | nil => intro v y; rfl
  | cons z rest ih =>
    intro v y
    rw [List.foldl_cons, List.foldl_cons, max_assoc, ih]

theorem foldl_optMin_some : ∀ (xs : List Nat) (v : Nat),
    xs.foldl optMin (some v) = some (xs.foldl min v) := by
  intro xs
  induction xs with
  | nil => intro v; rfl
  | cons x xs ih => intro v; rw [List.foldl_cons, List.foldl_cons]; exact ih _

theorem natsMin_cons (x : Nat) (xs : List Nat) :
    natsMin (x :: xs) = some (xs.foldl min x) := by
  rw [natsMin, List.foldl_cons]
  exact foldl_optMin_some xs x

theorem natsMin_eq_none_iff (xs : List Nat) : natsMin xs = none ↔ xs = [] := by
  cases xs with
  | nil => simp [natsMin]
  | cons x xs => simp [natsMin_cons]

theorem foldl_optMin_eq_optJoin : ∀ (ys : List Nat) (a : Option Nat),
    ys.foldl optMin a = optJoin a (natsMin ys) := by
  intro ys a
  cases a with
  | none => rfl
  | some v =>
    rw [foldl_optMin_some]
    cases ys with
    | nil => rfl
    | cons y ys =>
      rw [natsMin_cons, optJoin, List.foldl_cons, foldl_min_pull]

theorem natsMin_append (xs ys : List Nat) :
    natsMin (xs ++ ys) = optJoin (natsMin xs) (natsMin ys) := by
  rw [natsMin, List.foldl_append, ← natsMin, foldl_optMin_eq_optJoin]

theorem foldl_max_eq : ∀ (ys : List Nat) (a : Nat),
    ys.foldl max a = max a (natsMax ys) := by
  intro ys a
  cases ys with
  | nil => simp [natsMax]
  | cons y ys =>
    rw [List.foldl_cons, foldl_max_pull, natsMax, List.foldl_cons, Nat.zero_max]

theorem natsMax_append (xs ys : List Nat) :
    natsMax (xs ++ ys) = max (natsMax xs) (natsMax ys) := by
  rw [natsMax, List.foldl_append, ← natsMax, foldl_max_eq]

theorem foldl_min_le_init : ∀ (xs : List Nat) (v : Nat), xs.foldl min v ≤ v := by
  intro xs
  induction xs with
  | nil => intro v; exact le_refl v
  | cons x xs ih =>
    intro v
    rw [List.foldl_cons]
    exact le_trans (ih _) (min_le_left _ _)

theorem foldl_min_le_mem : ∀ (xs : List Nat) (v : Nat), ∀ x ∈ xs, xs.foldl min v ≤ x := by
  intro xs
  induction xs with
  | nil => intro v x hx; cases hx
  | cons y xs ih =>
    intro v x hx
    rw [List.foldl_cons]
    rcases List.mem_cons.1 hx with rfl | hx
    · exact le_trans (foldl_min_le_init _ _) (min_le_right _ _)
    · exact ih _ x hx

theorem natsMin_le {xs : List Nat} {m : Nat} (h : natsMin xs = some m) :
    ∀ x ∈ xs, m ≤ x := by
  cases xs with
  | nil => simp [natsMin] at h
  | cons y ys =>
    rw [natsMin_cons] at h
    obtain rfl : ys.foldl min y = m := Option.some.inj h
    intro x hx
    rcases List.mem_cons.1 hx with rfl | hx
    · exact foldl_min_le_init _ _
    · exact foldl_min_le_mem _ _ x hx

theorem le_foldl_max : ∀ (xs : List Nat) (v : Nat), v ≤ xs.foldl max v := by
  intro xs
  induction xs with
  | nil => intro v; exact le_refl v
  | cons x xs ih =>
    intro v
    rw [List.foldl_cons]
    exact le_trans (le_max_left _ _) (ih _)

theorem le_natsMax {xs : List Nat} : ∀ x ∈ xs, x ≤ natsMax xs := by
  intro x hx
  induction xs with
  | nil => cases hx
  | cons y ys ih =>
    rw [natsMax, List.foldl_cons]
    rcases List.mem_cons.1 hx with rfl | hx
    · exact le_trans (le_max_right _ _) (le_foldl_max _ _)
    · rw [foldl_max_eq]
      exact le_trans (ih hx) (le_max_right _ _)

theorem natsMin_le_natsMax {xs : List Nat} {m : Nat} (h : natsMin xs = some m) :
    m ≤ natsMax xs := by
  cases xs with
  | nil => simp [natsMin] at h
  | cons y ys =>
    exact le_trans (natsMin_le h y (by simp)) (le_natsMax y (by simp))

theorem gbFold_char : ∀ (pts : List (Nat × Nat)) (st : GB),
    pts.foldl gbUpdate st =
      ⟨(pts.map Prod.fst).foldl optMin st.minX,
       (pts.map Prod.snd).foldl optMin st.minY,
       (pts.map Prod.fst).foldl max st.maxX,
       (pts.map Prod.snd).foldl max st.maxY⟩ := by
  intro pts
  induction pts with
  | nil => intro st; rfl
  | cons xy pts ih =>
    intro st
    rw [List.foldl_cons, ih, List.map_cons, List.map_cons,
      List.foldl_cons, List.foldl_cons, List.foldl_cons, List.foldl_cons]
    rfl

theorem fcbFold_char : ∀ (pts : List (Nat × Nat)) (st : FCB), pts ≠ [] →
    pts.foldl fcbUpd st =
      ⟨(pts.map Prod.fst).foldl min st.minX,
       (pts.map Prod.snd).foldl min st.minY,
       (pts.map Prod.fst).foldl max st.maxX,
       (pts.map Prod.snd).foldl max st.maxY, true⟩ := by
  intro pts
  induction pts with
  | nil => intro st h; cases h rfl
  | cons xy pts ih =>
    intro st _
    rw [List.foldl_cons, List.map_cons, List.map_cons,
      List.foldl_cons, List.foldl_cons, List.foldl_cons, List.foldl_cons]
    cases pts with
    | nil => rfl
    | cons b pts => exact ih _ (by simp)

theorem mem_scanPoints {w h : Nat} {xy : Nat × Nat} :
    xy ∈ scanPoints w h ↔ xy.1 < w ∧ xy.2 < h := by
  obtain ⟨x, y⟩ := xy
  rw [scanPoints]
  simp only [List.mem_flatMap, List.mem_map, List.mem_range, Prod.mk.injEq]
  constructor
  · rintro ⟨y', hy', x', hx', rfl, rfl⟩
    exact ⟨hx', hy'⟩
  · rintro ⟨hx, hy⟩
    exact ⟨y, hy, x, hx, rfl, rfl⟩

theorem mem_frameContent {q : Png} {xy : Nat × Nat} (h : xy ∈ frameContent q) :
    xy.1 < q.width ∧ xy.2 < q.height := by
  rw [frameContent] at h
  exact mem_scanPoints.1 (List.mem_of_mem_filter h)

/-- Reading one byte of an extracted frame at an in-range frame-local
position is reading the sheet through the pass's flat formula. -/
theorem extractFrame_read (p : Png) {fw fh : Nat} (fpr f x y ch : Nat)
    (hx : x < fw) (hy : y < fh) (hch : ch < 4) :
    readByte (extractFrame p fw fh fpr f) (4 * (fw * y + x) + ch) =
      readByte p (4 * (p.width * (f / fpr * fh + y) + (f % fpr * fw + x)) + ch) := by
  have hpix : fw * y + x < fw * fh := by
    calc fw * y + x < fw * y + fw := by omega
      _ = fw * (y + 1) := by ring
      _ ≤ fw * fh := Nat.mul_le_mul_left _ (by omega)
  have hidx : 4 * (fw * y + x) + ch < 4 * (fw * fh) := by omega
  have h4 : (4 * (fw * y + x) + ch) / 4 = fw * y + x := by omega
  have hm4 : (4 * (fw * y + x) + ch) % 4 = ch := by omega
  show (if 4 * (fw * y + x) + ch < 4 * (fw * fh) then
      readByte p (4 * (p.width * (f / fpr * fh + (4 * (fw * y + x) + ch) / 4 / fw) +
        (f % fpr * fw + (4 * (fw * y + x) + ch) / 4 % fw)) +
        (4 * (fw * y + x) + ch) % 4) % 256 else 0) = _
  rw [if_pos hidx, h4, hm4, mul_add_div_of_lt hx, mul_add_mod_of_lt hx, readByte_mod]

/-- On a sheet at least one frame wide, the crop-bounds pass's per-slot
content pixels are exactly the content of the decoded (guarded) frame. -/
theorem passPoints_eq_frameContent (p : Png) {fw : Nat} (fh i : Nat)
    (hfw : 0 < fw) (hle : fw ≤ p.width) :
    ((scanPoints fw fh).filter fun xy =>
        decide (readByte p (tileIdx p.width fw fh (p.width / fw) i xy.1 xy.2 + 3) > 0)) =
      frameContent (extractFrame p fw fh (max (p.width / fw) 1) i) := by
  have hfpr : 0 < p.width / fw := Nat.div_pos hle hfw
  have hmax : max (p.width / fw) 1 = p.width / fw := max_eq_left hfpr
  rw [frameContent]
  refine List.filter_congr ?_
  intro xy hxy
  obtain ⟨hx, hy⟩ := mem_scanPoints.1 hxy
  rw [tileIdx, if_neg hfpr.ne', hmax]
  rw [show (4 : Nat) * ((extractFrame p fw fh (p.width / fw) i).width * xy.2 + xy.1) + 3 =
      4 * (fw * xy.2 + xy.1) + 3 from rfl]
  rw [extractFrame_read p (p.width / fw) i xy.1 xy.2 3 hx hy (by norm_num)]

/-- The crop-bounds pass over one chunk folds `gbUpdate` over the decoded
frames' content. -/
theorem gbChunkFold_eq {fw : Nat} (fh : Nat) (c : Chunk) (hwf : chunkWF fw c = true) :
    ∀ st, gbChunkFold fw fh st c =
      ((chunkFrames fw fh c).flatMap frameContent).foldl gbUpdate st := by
  intro st
  rw [gbChunkFold, chunkFrames]
  rcases himg : c.base64PNG with _ | p
  · rfl
  · rw [chunkWF, himg] at hwf
    obtain ⟨hfw, hle⟩ := of_decide_eq_true hwf
    rw [flatMap_map]
    rw [foldl_flatMap]
    refine foldl_congr_mem ?_ st
    intro i _ st'
    rw [foldl_ite_filter (fun xy : Nat × Nat =>
        readByte p (tileIdx p.width fw fh (p.width / fw) i xy.1 xy.2 + 3) > 0) gbUpdate]
    rw [passPoints_eq_frameContent p fh i hfw hle]

/-- The whole crop-bounds fold is `gbUpdate` over `docPoints`. -/
theorem gbDocFold_eq (doc : PiskelDoc)
    (hwf : ∀ l ∈ doc.layers, ∀ c ∈ l.chunks.getD [], chunkWF doc.width c = true) :
    doc.layers.foldl (fun st l =>
        (l.chunks.getD []).foldl (gbChunkFold doc.width doc.height) st) ⟨none, none, 0, 0⟩ =
      (docPoints doc).foldl gbUpdate ⟨none, none, 0, 0⟩ := by
  rw [docPoints, allFrames, flatMap_flatMap, foldl_flatMap]
  refine foldl_congr_mem ?_ _
  intro l hl st
  rw [flatMap_flatMap, foldl_flatMap]
  refine foldl_congr_mem ?_ st
  intro c hc st'
  exact gbChunkFold_eq doc.height c (hwf l hl c hc) st'

/-- `findContentBounds` of a frame with content, through the minima and
maxima of its content coordinates. -/
theorem findContentBounds_content {q : Png} (h : frameContent q ≠ []) :
    ∃ m n, natsMin ((frameContent q).map Prod.fst) = some m ∧
      natsMin ((frameContent q).map Prod.snd) = some n ∧
      findContentBounds q =
        ⟨m, n, natsMax ((frameContent q).map Prod.fst) - m + 1,
         natsMax ((frameContent q).map Prod.snd) - n + 1⟩ := by
  obtain ⟨xy, rest, hL⟩ := List.exists_cons_of_ne_nil h
  have hx : xy.1 < q.width := (mem_frameContent (by rw [hL]; simp)).1
  have hy : xy.2 < q.height := (mem_frameContent (by rw [hL]; simp)).2
  have hscan : (scanPoints q.width q.height).foldl (fcbStep q) ⟨q.width, q.height, 0, 0, false⟩ =
      (frameContent q).foldl fcbUpd ⟨q.width, q.height, 0, 0, false⟩ := by
    rw [frameContent]
    exact foldl_ite_filter _ fcbUpd _ _
  have hminx : ((frameContent q).map Prod.fst).foldl min q.width =
      (rest.map Prod.fst).foldl min xy.1 := by
    rw [hL, List.map_cons, List.foldl_cons, foldl_min_pull]
    exact min_eq_right (le_trans (foldl_min_le_init _ _) (le_of_lt hx))
  have hminy : ((frameContent q).map Prod.snd).foldl min q.height =
      (rest.map Prod.snd).foldl min xy.2 := by
    rw [hL, List.map_cons, List.foldl_cons, foldl_min_pull]
    exact min_eq_right (le_trans (foldl_min_le_init _ _) (le_of_lt hy))
  refine ⟨(rest.map Prod.fst).foldl min xy.1, (rest.map Prod.snd).foldl min xy.2, ?_, ?_, ?_⟩
  · rw [hL, List.map_cons, natsMin_cons]
  · rw [hL, List.map_cons, natsMin_cons]
  · rw [findContentBounds]
    simp only [hscan, fcbFold_char _ _ (hL ▸ List.cons_ne_nil xy rest)]
    rw [if_neg (by simp)]
    rw [hminx, hminy]
    rfl

/-- Joining two tight rectangles written through their min/max corners. -/
theorem rectJoin_canonical {m n M N mq nq Mq Nq : Nat}
    (h1 : m ≤ M) (h2 : n ≤ N) (h3 : mq ≤ Mq) (h4 : nq ≤ Nq) :
    rectJoin ⟨m, n, M - m + 1, N - n + 1⟩ ⟨mq, nq, Mq - mq + 1, Nq - nq + 1⟩ =
      ⟨min m mq, min n nq, max M Mq - min m mq + 1, max N Nq - min n nq + 1⟩ := by
  simp only [rectJoin, Rect.mk.injEq]
  refine ⟨trivial, trivial, ?_, ?_⟩ <;> omega

/-- Folding `rectJoin` over the content bounds of frames with content joins
their content coordinates. -/
theorem rectFold : ∀ (qs : List Png) (pts : List (Nat × Nat)) (m n : Nat),
    natsMin (pts.map Prod.fst) = some m → natsMin (pts.map Prod.snd) = some n →
    (∀ q ∈ qs, frameContent q ≠ []) →
    ∃ m' n',
      natsMin ((pts ++ qs.flatMap frameContent).map Prod.fst) = some m' ∧
      natsMin ((pts ++ qs.flatMap frameContent).map Prod.snd) = some n' ∧
      (qs.map findContentBounds).foldl rectJoin
          ⟨m, n, natsMax (pts.map Prod.fst) - m + 1, natsMax (pts.map Prod.snd) - n + 1⟩ =
        ⟨m', n', natsMax ((pts ++ qs.flatMap frameContent).map Prod.fst) - m' + 1,
          natsMax ((pts ++ qs.flatMap frameContent).map Prod.snd) - n' + 1⟩ := by
  intro qs
  induction qs with
  | nil =>
    intro pts m n hm hn _
    exact ⟨m, n, by simpa using hm, by simpa using hn, by simp⟩
  | cons q qs ih =>
    intro pts m n hm hn hne
    obtain ⟨mq, nq, hmq, hnq, hfcb⟩ := findContentBounds_content (hne q (by simp))
    have hm' : natsMin ((pts ++ frameContent q).map Prod.fst) = some (min m mq) := by
      rw [List.map_append, natsMin_append, hm, hmq]; rfl
    have hn' : natsMin ((pts ++ frameContent q).map Prod.snd) = some (min n nq) := by
      rw [List.map_append, natsMin_append, hn, hnq]; rfl
    have hMx : natsMax ((pts ++ frameContent q).map Prod.fst) =
        max (natsMax (pts.map Prod.fst)) (natsMax ((frameContent q).map Prod.fst)) := by
      rw [List.map_append, natsMax_append]
    have hMy : natsMax ((pts ++ frameContent q).map Prod.snd) =
        max (natsMax (pts.map Prod.snd)) (natsMax ((frameContent q).map Prod.snd)) := by
      rw [List.map_append, natsMax_append]
    obtain ⟨m', n', hr1, hr2, hr3⟩ := ih (pts ++ frameContent q) (min m mq) (min n nq) hm' hn'
      (fun q' hq' => hne q' (by simp [hq']))
    rw [hMx, hMy] at hr3
    refine ⟨m', n', ?_, ?_, ?_⟩
    · rw [List.flatMap_cons, ← List.append_assoc]; exact hr1
    · rw [List.flatMap_cons, ← List.append_assoc]; exact hr2
    · rw [List.map_cons, List.foldl_cons, hfcb,
        rectJoin_canonical (natsMin_le_natsMax hm) (natsMin_le_natsMax hn)
          (natsMin_le_natsMax hmq) (natsMin_le_natsMax hnq)]
      rw [List.flatMap_cons, ← List.append_assoc]
      exact hr3

/-- Frames without content contribute nothing to the flattened content. -/
theorem flatMap_content_filter : ∀ (qs : List Png),
    (qs.filter fun q => !(frameContent q).isEmpty).flatMap frameContent =
      qs.flatMap frameContent := by
  intro qs
  induction qs with
  | nil => rfl
  | cons q qs ih =>
    by_cases h : (frameContent q).isEmpty = true
    · rw [List.flatMap_cons, List.filter_cons_of_neg (by simp [h]), ih,
        List.isEmpty_iff.1 h, List.nil_append]
    · rw [List.flatMap_cons, List.filter_cons_of_pos (by simp [h]), List.flatMap_cons, ih]

theorem flatMap_eq_nil_of {α β : Type} (f : α → List β) :
    ∀ (l : List α), (∀ a ∈ l, f a = []) → l.flatMap f = [] := by
  intro l
  induction l with
  | nil => intro _; rfl
  | cons a l ih =>
    intro h
    rw [List.flatMap_cons, h a (by simp), List.nil_append]
    exact ih fun a' ha' => h a' (by simp [ha'])

/-- The `Infinity`/`0`-seeded crop-bounds fold, through `natsMin`/`natsMax`. -/
theorem gbFold_char0 (pts : List (Nat × Nat)) :
    pts.foldl gbUpdate ⟨none, none, 0, 0⟩ =
      ⟨natsMin (pts.map Prod.fst), natsMin (pts.map Prod.snd),
       natsMax (pts.map Prod.fst), natsMax (pts.map Prod.snd)⟩ := by
  rw [gbFold_char]
  rfl

/-- A document with no content pixel anywhere yields no crop rectangle. -/
theorem globalCropBounds_none (doc : PiskelDoc)
    (hwf : ∀ l ∈ doc.layers, ∀ c ∈ l.chunks.getD [], chunkWF doc.width c = true)
    (h : docPoints doc = []) : globalCropBounds doc = none := by
  simp only [globalCropBounds]
  rw [gbDocFold_eq doc hwf, gbFold_char0, h]
  rfl

/-- A document with content yields the rectangle spanned by the minima and
maxima of all frame-local content coordinates. -/
theorem globalCropBounds_some (doc : PiskelDoc)
    (hwf : ∀ l ∈ doc.layers, ∀ c ∈ l.chunks.getD [], chunkWF doc.width c = true)
    {m n : Nat}
    (hm : natsMin ((docPoints doc).map Prod.fst) = some m)
    (hn : natsMin ((docPoints doc).map Prod.snd) = some n) :
    globalCropBounds doc =
      some ⟨m, n, natsMax ((docPoints doc).map Prod.fst) - m + 1,
        natsMax ((docPoints doc).map Prod.snd) - n + 1⟩ := by
  simp only [globalCropBounds]
  rw [gbDocFold_eq doc hwf, gbFold_char0, hm, hn]
  show (if m ≤ natsMax ((docPoints doc).map Prod.fst) ∧
      n ≤ natsMax ((docPoints doc).map Prod.snd) then
    (some ⟨m, n, natsMax ((docPoints doc).map Prod.fst) - m + 1,
      natsMax ((docPoints doc).map Prod.snd) - n + 1⟩ : Option Rect)
  else none) = _
  exact if_pos ⟨natsMin_le_natsMax hm, natsMin_le_natsMax hn⟩

/-- **C1**: with cropping requested, `transformPiskel` computes ONE global
rectangle — `none` exactly when every decoded frame of every chunk of every
layer is fully transparent (the crop step is then skipped and the declared
dimensions are unchanged), and otherwise the `rectJoin`-union of the
`findContentBounds` of every frame that has content — and applies that same
rectangle, via `cropPng` inside `framePipeline`, to every frame of every
chunk of every layer. -/
theorem C1_global_crop_rectangle (doc : PiskelDoc)
    (hwf : ∀ l ∈ doc.layers, ∀ c ∈ l.chunks.getD [], chunkWF doc.width c = true) :
    (globalCropBounds doc = none ↔ ∀ q ∈ allFrames doc, frameContent q = []) ∧
    (∀ r₀ rs, (contentFrames doc).map findContentBounds = r₀ :: rs →
      globalCropBounds doc = some (rs.foldl rectJoin r₀)) ∧
    (globalCropBounds doc = none →
      (transformPiskel doc ⟨none, true⟩).width = doc.width ∧
      (transformPiskel doc ⟨none, true⟩).height = doc.height) ∧
    (∀ r, globalCropBounds doc = some r →
      (transformPiskel doc ⟨none, true⟩).layers =
        doc.layers.map (fun l =>
          { l with chunks := l.chunks.map fun cs =>
              cs.map (transformChunk doc.width doc.height (some r) r.width r.height) }) ∧
      ∀ p fw fh f, framePipeline p fw fh (some r) r.width r.height f =
        cropPng (extractFrame p fw fh (max (p.width / fw) 1) f) r) := by
  have hcontent : ∀ q ∈ contentFrames doc, frameContent q ≠ [] := by
    intro q hq hnil
    have hfe := List.of_mem_filter hq
    rw [hnil] at hfe
    simp at hfe
  refine ⟨?_, ?_, ?_, ?_⟩
  · constructor
    · intro hnone q hq
      by_contra hne
      obtain ⟨xy, rest, hL⟩ := List.exists_cons_of_ne_nil hne
      have hmem : xy ∈ docPoints doc := by
        rw [docPoints]
        exact List.mem_flatMap.2 ⟨q, hq, by rw [hL]; simp⟩
      obtain ⟨p, ps, hdp⟩ := List.exists_cons_of_ne_nil (List.ne_nil_of_mem hmem)
      have hm : natsMin ((docPoints doc).map Prod.fst) =
          some ((ps.map Prod.fst).foldl min p.1) := by
        rw [hdp, List.map_cons, natsMin_cons]
      have hn : natsMin ((docPoints doc).map Prod.snd) =
          some ((ps.map Prod.snd).foldl min p.2) := by
        rw [hdp, List.map_cons, natsMin_cons]
      rw [globalCropBounds_some doc hwf hm hn] at hnone
      exact Option.some_ne_none _ hnone
    · intro hall
      exact globalCropBounds_none doc hwf
        (by rw [docPoints]; exact flatMap_eq_nil_of _ _ hall)
  · intro r₀ rs hmap
    cases hcf : contentFrames doc with
    | nil => rw [hcf, List.map_nil] at hmap; cases hmap
    | cons q₀ qs =>
      rw [hcf, List.map_cons] at hmap
      injection hmap with h₀ hs
      have hq₀ : frameContent q₀ ≠ [] := hcontent q₀ (by rw [hcf]; simp)
      obtain ⟨m₀, n₀, hm₀, hn₀, hfcb₀⟩ := findContentBounds_content hq₀
      obtain ⟨m', n', hr1, hr2, hr3⟩ := rectFold qs (frameContent q₀) m₀ n₀ hm₀ hn₀
        (fun q hq => hcontent q (by rw [hcf]; simp [hq]))
      have hdp : docPoints doc = frameContent q₀ ++ qs.flatMap frameContent := by
        rw [docPoints, ← flatMap_content_filter (allFrames doc), ← contentFrames,
          hcf, List.flatMap_cons]
      have hm' : natsMin ((docPoints doc).map Prod.fst) = some m' := by
        rw [hdp]; exact hr1
      have hn' : natsMin ((docPoints doc).map Prod.snd) = some n' := by
        rw [hdp]; exact hr2
      rw [← hs, ← h₀, hfcb₀, hr3, globalCropBounds_some doc hwf hm' hn', hdp]
  · intro hnone
    constructor <;> simp [transformPiskel, resolveDims, hnone]
  · intro r hr
    constructor
    · simp [transformPiskel, resolveDims, hr]
    · intro p fw fh f
      simp [framePipeline, cropPng]

/-- Concrete run of the C1 theorem on the specification's two-frame
scenario: frame 0's content is (0,0,2,2), frame 1's is (1,1,3,3), and the
global rectangle is their join (0,0,4,4). -/
theorem C1_witness :
    (∀ l ∈ scenarioDoc.layers, ∀ c ∈ l.chunks.getD [], chunkWF scenarioDoc.width c = true) ∧
    (contentFrames scenarioDoc).map findContentBounds = [⟨0, 0, 2, 2⟩, ⟨1, 1, 3, 3⟩] ∧
    globalCropBounds scenarioDoc = some ([(⟨1, 1, 3, 3⟩ : Rect)].foldl rectJoin ⟨0, 0, 2, 2⟩) ∧
    [(⟨1, 1, 3, 3⟩ : Rect)].foldl rectJoin ⟨0, 0, 2, 2⟩ = ⟨0, 0, 4, 4⟩ :=
  ⟨by decide, by decide,
   (C1_global_crop_rectangle scenarioDoc (by decide)).2.1 ⟨0, 0, 2, 2⟩ [⟨1, 1, 3, 3⟩]
     (by decide),
   by decide⟩

end Piskel
